import Mathlib

/-!
Verification of the weighted-graph / biased shortest-path core
(`residency/graph.py`) against its design specification.

Modelling conventions:
* Node identifiers are natural numbers (the source uses opaque comparable,
  hashable tokens; the heap tie-break needs only a linear order).
* Edge base costs and all derived costs are rationals (the source uses
  Python numbers; the algorithm only adds, scales and compares them).
* The adjacency store `adj_list` (a `defaultdict(list)`) is an association
  list from node to its ordered outgoing-edge list; reads go through
  `lookupAdj`, which, like `dict.get`, never creates entries.
* Tentative distances form a total map `Node → Option ℚ`; `none` stands
  for `float('inf')` / an absent key (the source initialises every known
  node to infinity and `distances.get(v, float('inf'))` defaults the
  rest); `ltO` and `gtO` are the comparisons against such a value.
* The `heapq` priority queue is a list of `(cost, node)` pairs;
  `heappop` returns the least pair in lexicographic order, which
  `findMin` computes (duplicate pairs are indistinguishable in value, so
  extracting the first minimum is faithful).
* Both `while` loops of `dijkstra` run on explicit fuel; theorems below
  prove the chosen fuel always suffices, so `none` (fuel exhaustion)
  never escapes.
-/

namespace Residency

abbrev Node := ℕ

/-- One directed edge as stored in `adj_list[u]`: the tuple
`(v, weight, crowd, tip, blind_spot)` of `add_edge`. -/
structure Edge where
  target : Node
  weight : ℚ
  crowd : String
  tip : String
  blind_spot : Bool
deriving DecidableEq, Repr

/-- The adjacency store: ordered association list from node to its ordered
list of outgoing edges, mirroring `self.adj_list`. -/
abbrev Graph := List (Node × List Edge)

/-- Error taxonomy of the core: `add_edge` raises `ValueError` exactly when
the weight is negative (the specification calls this `InvalidEdgeCost`). -/
inductive GraphError where
  | invalidEdgeCost
deriving DecidableEq, Repr

/-- Append an edge to the adjacency list of `u`, creating the entry when
absent — the effect of `self.adj_list[u].append(...)` on a `defaultdict`. -/
def insertEdge : Graph → Node → Edge → Graph
  | [], u, e => [(u, [e])]
  | (k, es) :: rest, u, e =>
    if k = u then (k, es ++ [e]) :: rest else (k, es) :: insertEdge rest u e

/-- Model of `Graph.add_edge`: reject a negative weight, otherwise append
the edge tuple. No other validation is performed. -/
def add_edge (g : Graph) (u v : Node) (weight : ℚ) (crowd : String)
    (tip : String) (blind_spot : Bool) : Except GraphError Graph :=
  if weight < 0 then Except.error GraphError.invalidEdgeCost
  else Except.ok (insertEdge g u ⟨v, weight, crowd, tip, blind_spot⟩)

/-- Pure dictionary lookup (`dict.get`): no entry is ever created. -/
def lookupAdj : Graph → Node → Option (List Edge)
  | [], _ => none
  | (k, es) :: rest, u => if k = u then some es else lookupAdj rest u

/-- Neighbour iteration, `self.adj_list.get(u, [])`: the edge list of `u`,
or the empty list when `u` has no entry. -/
def neighbors (g : Graph) (u : Node) : List Edge := (lookupAdj g u).getD []

/-- Membership test `start in self.adj_list`. -/
def known (g : Graph) (u : Node) : Bool := (lookupAdj g u).isSome

/-- Crowd bias: the dictionary lookup
`{'low': 0, 'medium': w * 0.2, 'high': w * 0.5}.get(crowd, 0)`. -/
def crowd_bias (crowd : String) (w : ℚ) : ℚ :=
  if crowd = "low" then 0
  else if crowd = "medium" then w * (2 / 10)
  else if crowd = "high" then w * (5 / 10)
  else 0

/-- Hazard penalty: `w * 2 if blind_spot else 0`. -/
def blind_spot_penalty (b : Bool) (w : ℚ) : ℚ := if b then w * 2 else 0

/-- The mode-dependent bias added to an edge weight during relaxation. -/
def edgeBias (learner : Bool) (e : Edge) : ℚ :=
  if learner then crowd_bias e.crowd e.weight + blind_spot_penalty e.blind_spot e.weight
  else 0

/-- Effective cost of traversing an edge: `w + bias`, the amount added to
`dist_u` to form `new_dist`. -/
def effW (learner : Bool) (e : Edge) : ℚ := e.weight + edgeBias learner e

/-- Comparison `q < d` of a rational against a possibly-infinite
tentative distance (`new_dist < distances.get(v, float('inf'))`). -/
def ltO (q : ℚ) : Option ℚ → Prop
  | none => True
  | some x => q < x

instance (q : ℚ) (d : Option ℚ) : Decidable (ltO q d) := by
  cases d
  · exact isTrue trivial
  · exact inferInstanceAs (Decidable (q < _))

/-- Comparison `q > d` against a possibly-infinite tentative distance
(the staleness test `dist_u > distances[u]`). -/
def gtO (q : ℚ) : Option ℚ → Prop
  | none => False
  | some x => x < q

instance (q : ℚ) (d : Option ℚ) : Decidable (gtO q d) := by
  cases d
  · exact isFalse id
  · exact inferInstanceAs (Decidable (_ < q))

/-- Order `d ≤ q` of a possibly-infinite tentative distance against a
rational; infinity exceeds every rational. -/
def oLE : Option ℚ → ℚ → Prop
  | none, _ => False
  | some a, q => a ≤ q

instance (d : Option ℚ) (q : ℚ) : Decidable (oLE d q) := by
  cases d
  · exact isFalse id
  · exact inferInstanceAs (Decidable (_ ≤ q))

/-- Order between two possibly-infinite tentative distances
(`none` is infinity). -/
def oLEO : Option ℚ → Option ℚ → Prop
  | _, none => True
  | none, some _ => False
  | some a, some b => a ≤ b

/-- Search state of the main loop: tentative distances, predecessor map and
the priority queue. -/
structure DState where
  dist : Node → Option ℚ
  prev : Node → Option Node
  pq : List (ℚ × Node)

/-- Point update of the distance map (`distances[v] = new_dist`). -/
def updD (f : Node → Option ℚ) (n : Node) (x : ℚ) : Node → Option ℚ :=
  fun m => if m = n then some x else f m

/-- Point update of the predecessor map (`previous[v] = u`). -/
def updP (f : Node → Option Node) (n u : Node) : Node → Option Node :=
  fun m => if m = n then some u else f m

/-- Choice of the lexicographically smaller queue entry, preferring the
first argument on ties (ties between distinct entries cannot occur). -/
def pqSelect (x y : ℚ × Node) : ℚ × Node :=
  if x.1 < y.1 ∨ (x.1 = y.1 ∧ x.2 ≤ y.2) then x else y

/-- The least queue entry in lexicographic order — the value `heappop`
returns. -/
def findMin : List (ℚ × Node) → Option (ℚ × Node)
  | [] => none
  | x :: xs =>
    match findMin xs with
    | none => some x
    | some m => some (pqSelect x m)

/-- The inner `for` loop of `dijkstra`: relax each outgoing edge of `u` in
list order, updating distance, predecessor and queue on improvement. -/
def relax (learner : Bool) (du : ℚ) (u : Node) : List Edge → DState → DState
  | [], s => s
  | e :: es, s =>
    let nd := du + effW learner e
    if ltO nd (s.dist e.target) then
      relax learner du u es
        ⟨updD s.dist e.target nd, updP s.prev e.target u, s.pq ++ [(nd, e.target)]⟩
    else
      relax learner du u es s

/-- Removal of the first occurrence of a value from the queue — the
effect of `heappop` on the multiset of entries, given that the popped
entry is the least one. -/
def removeFirst : List (ℚ × Node) → (ℚ × Node) → List (ℚ × Node)
  | [], _ => []
  | x :: xs, a => if x = a then xs else x :: removeFirst xs a

/-- Number of occurrences of an entry in the queue. -/
def cnt (a : ℚ × Node) : List (ℚ × Node) → ℕ
  | [] => 0
  | x :: xs => (if x = a then 1 else 0) + cnt a xs

/-- Position of the first occurrence of a node in a list (the settlement
order used by the invariant). -/
def idxOf (a : Node) : List Node → ℕ
  | [] => 0
  | x :: xs => if x = a then 0 else idxOf a xs + 1

/-- The main `while pq` loop, on fuel: pop the least entry, drop it when
stale (`dist_u > distances[u]`), stop when the end node is popped,
otherwise relax its edges. `none` means the fuel ran out mid-loop. -/
def dloop (g : Graph) (endN : Node) (learner : Bool) : ℕ → DState → Option DState
  | 0, s => if s.pq = [] then some s else none
  | fuel + 1, s =>
    match findMin s.pq with
    | none => some s
    | some du =>
      if gtO du.1 (s.dist du.2) then
        dloop g endN learner fuel ⟨s.dist, s.prev, removeFirst s.pq du⟩
      else if du.2 = endN then some ⟨s.dist, s.prev, removeFirst s.pq du⟩
      else dloop g endN learner fuel
        (relax learner du.1 du.2 (neighbors g du.2) ⟨s.dist, s.prev, removeFirst s.pq du⟩)

/-- The back-tracing `while cur is not None` loop, on fuel: append the
current node, then follow `previous.get(cur)`. -/
def backtrace (prev : Node → Option Node) : ℕ → Node → List Node → Option (List Node)
  | 0, _, _ => none
  | fuel + 1, cur, acc =>
    match prev cur with
    | none => some (acc ++ [cur])
    | some p => backtrace prev fuel p (acc ++ [cur])

/-- Total number of stored edges (summed over all adjacency entries). -/
def numEdges (g : Graph) : ℕ := (g.map fun p => p.2.length).sum

/-- Consecutive pairs of a node list, as walked by the annotation loop
`for i in range(1, len(path))`. -/
def pathPairs : List Node → List (Node × Node)
  | u :: v :: rest => (u, v) :: pathPairs (v :: rest)
  | _ => []

/-- First edge from `u` to `v` in insertion order — the edge at which the
annotation loop breaks. -/
def firstEdge (g : Graph) (u v : Node) : Option Edge :=
  (neighbors g u).find? fun e => e.target = v

/-- Collected advisory strings: for each consecutive pair, the matched
edge contributes its tip exactly when the mode is learner and the tip is
non-empty (`if learner_mode and t`). -/
def tipsOf (g : Graph) (learner : Bool) (path : List Node) : List String :=
  (pathPairs path).filterMap fun uv =>
    match firstEdge g uv.1 uv.2 with
    | some e => if learner = true ∧ e.tip ≠ "" then some e.tip else none
    | none => none

/-- The formatted hazard-alert string for a traversed pair. -/
def alertMsg (u v : Node) : String :=
  "Blind spot at " ++ toString u ++ " to " ++ toString v

/-- Collected hazard alerts: for each consecutive pair, the matched edge
contributes an alert exactly when its hazard flag is set, in any mode. -/
def alertsOf (g : Graph) (path : List Node) : List String :=
  (pathPairs path).filterMap fun uv =>
    match firstEdge g uv.1 uv.2 with
    | some e => if e.blind_spot then some (alertMsg uv.1 uv.2) else none
    | none => none

/-- Initial search state: `distances[start] = 0`, every other distance
infinite, no predecessors, queue `[(0, start)]`. -/
def startState (start : Node) : DState :=
  ⟨fun n => if n = start then some 0 else none, fun _ => none, [((0 : ℚ), start)]⟩

/-- Model of `Graph.dijkstra`. The result is `none` only when some loop
fuel runs out; the termination theorems prove this never happens. -/
def dijkstra (g : Graph) (start endN : Node) (learner : Bool) :
    Option (List Node × List String × List String) :=
  if known g start = false ∧ start ≠ endN then some ([], [], [])
  else if start = endN then some ([start], [], [])
  else
    match dloop g endN learner (1 + numEdges g) (startState start) with
    | none => none
    | some s =>
      match backtrace s.prev (2 + numEdges g) endN [] with
      | none => none
      | some revPath =>
        let path := revPath.reverse
        if path = [] ∨ path.head? ≠ some start then some ([], [], [])
        else some (path, tipsOf g learner path, alertsOf g path)

/-- Graphs whose stored edges all carry non-negative weights — the
invariant `add_edge` enforces. -/
def ValidGraph (g : Graph) : Prop := ∀ p ∈ g, ∀ e ∈ p.2, 0 ≤ e.weight

instance (g : Graph) : Decidable (ValidGraph g) := by
  unfold ValidGraph; infer_instance

/-- Graphs reachable from the empty store by successful `add_edge` calls. -/
inductive Built : Graph → Prop where
  | empty : Built []
  | step : ∀ (g : Graph) (u v : Node) (w : ℚ) (c t : String) (b : Bool) (g' : Graph),
      Built g → add_edge g u v w c t b = Except.ok g' → Built g'

/-- A node sequence is a directed path of the given total effective cost:
consecutive nodes are joined by stored edges, the cost summing each
traversed edge's effective cost. -/
inductive ChainCost (g : Graph) (learner : Bool) : List Node → ℚ → Prop where
  | single : ∀ u, ChainCost g learner [u] 0
  | cons : ∀ (u : Node) (e : Edge) (rest : List Node) (c : ℚ),
      e ∈ neighbors g u → ChainCost g learner (e.target :: rest) c →
      ChainCost g learner (u :: e.target :: rest) (effW learner e + c)

/-- Start-anchored reachability with accumulated effective cost (the
snoc-direction view of `ChainCost`, convenient for the frontier-cut
argument). -/
inductive Reach (g : Graph) (learner : Bool) (start : Node) : Node → ℚ → Prop where
  | base : Reach g learner start start 0
  | step : ∀ (u : Node) (c : ℚ) (e : Edge), Reach g learner start u c →
      e ∈ neighbors g u → Reach g learner start e.target (c + effW learner e)

/-- All edge targets occurring in the store. -/
def targetsF (g : Graph) : Finset Node :=
  ((g.map fun p => p.2.map Edge.target).flatten).toFinset

/-- Nodes the queue can ever contain: the start plus every edge target. -/
def relevantF (g : Graph) (start : Node) : Finset Node := insert start (targetsF g)

/-- Loop invariant of the frontier search, relative to the ghost list
`fin` of nodes already settled (popped fresh), in settlement order. -/
structure Inv (g : Graph) (learner : Bool) (start endN : Node)
    (s : DState) (fin : List Node) : Prop where
  pq_rel : ∀ x ∈ s.pq, x.2 ∈ relevantF g start
  pq_ge : ∀ x ∈ s.pq, oLE (s.dist x.2) x.1
  pq_nonneg : ∀ x ∈ s.pq, 0 ≤ x.1
  pq_once : ∀ (k : ℚ) (v : Node), s.dist v = some k → cnt (k, v) s.pq ≤ 1
  fin_final : ∀ v, v ∈ fin ↔
    (s.dist v ≠ none ∧ ¬∃ k : ℚ, (k, v) ∈ s.pq ∧ s.dist v = some k)
  fin_nodup : fin.Nodup
  fin_rel : ∀ v ∈ fin, v ∈ relevantF g start
  fin_le : ∀ v ∈ fin, ∀ x ∈ s.pq, oLE (s.dist v) x.1
  dist_start : s.dist start = some 0
  prev_start : s.prev start = none
  prev_some : ∀ v, v ≠ start → s.dist v ≠ none → (s.prev v).isSome
  prev_edge : ∀ v u, s.prev v = some u → ∃ e ∈ neighbors g u, e.target = v ∧
    ∃ a, s.dist u = some a ∧ s.dist v = some (a + effW learner e)
  prev_fin : ∀ v u, s.prev v = some u → u ∈ fin
  prev_idx : ∀ v u, s.prev v = some u → v ∈ fin → idxOf u fin < idxOf v fin
  opt : ∀ v ∈ fin, ∀ c, Reach g learner start v c → oLE (s.dist v) c
  relaxed : ∀ u ∈ fin, u ≠ endN → ∀ e ∈ neighbors g u, ∀ a, s.dist u = some a →
    oLE (s.dist e.target) (a + effW learner e)

/-- Crowd bias written exactly as the specification words it:
Low maps to 0, Medium to `0.2 * w`, High to `0.5 * w`. -/
def specCrowdBias (c : String) (w : ℚ) : ℚ :=
  if c = "low" then 0
  else if c = "medium" then (2 / 10) * w
  else (5 / 10) * w

/-- Hazard penalty written exactly as the specification words it:
`2.0 * w` when the hazard flag is set, else 0. -/
def specHazardPenalty (h : Bool) (w : ℚ) : ℚ := if h then 2 * w else 0

/-- Example store with a single edge `0 → 1` of weight 1. -/
def exGraph1 : Graph := [(0, [⟨1, 1, "low", "", false⟩])]

/-- Example store with a single edge whose congestion class is outside
the recognised domain. -/
def exGraphOdd : Graph := [(0, [⟨1, 1, "weird", "", false⟩])]

/-- Example store of the two-edge corridor scenario: a hazardous,
high-congestion edge `0 → 1` carrying an advisory, then a plain edge
`1 → 2` carrying an advisory. -/
def exGraphXYZ : Graph :=
  [(0, [⟨1, 1, "high", "Caution: merge zone", true⟩]),
   (1, [⟨2, 1, "low", "Smooth braking", false⟩])]

/-- Advisory collection as the specification words it for learner mode:
the advisory of each matched traversed edge is appended exactly when it
is non-empty. -/
def specLearnerTips (g : Graph) (path : List Node) : List String :=
  (pathPairs path).filterMap fun uv =>
    match firstEdge g uv.1 uv.2 with
    | some e => if e.tip ≠ "" then some e.tip else none
    | none => none

/-- Replace an out-of-domain congestion class by the default class
`"low"`, leaving the three recognised classes alone. -/
def normEdgeCrowd (e : Edge) : Edge :=
  if e.crowd = "low" ∨ e.crowd = "medium" ∨ e.crowd = "high" then e
  else ⟨e.target, e.weight, "low", e.tip, e.blind_spot⟩

/-- Normalise every stored congestion class as in `normEdgeCrowd`. -/
def normGraph (g : Graph) : Graph := g.map fun p => (p.1, p.2.map normEdgeCrowd)

end Residency

namespace Residency

/-! Basic facts about the adjacency store. -/

theorem lookupAdj_insertEdge_self (g : Graph) (u : Node) (e : Edge) :
    lookupAdj (insertEdge g u e) u = some ((neighbors g u) ++ [e]) := by
  induction g with
  | nil => simp [insertEdge, lookupAdj, neighbors]
  | cons p rest ih =>
    obtain ⟨k, es⟩ := p
    by_cases hk : k = u
    · subst hk
      simp [insertEdge, lookupAdj, neighbors]
    · simp [insertEdge, lookupAdj, hk, neighbors, ih]

theorem lookupAdj_insertEdge_ne (g : Graph) (u n : Node) (e : Edge) (h : n ≠ u) :
    lookupAdj (insertEdge g u e) n = lookupAdj g n := by
  have h' : ¬ (u = n) := fun hh => h hh.symm
  induction g with
  | nil => simp [insertEdge, lookupAdj, h']
  | cons p rest ih =>
    obtain ⟨k, es⟩ := p
    by_cases hk : k = u
    · subst hk
      simp [insertEdge, lookupAdj, h']
    · simp only [insertEdge, if_neg hk, lookupAdj]
      by_cases hn : k = n
      · simp [hn]
      · simp [hn, ih]

theorem neighbors_insertEdge_self (g : Graph) (u : Node) (e : Edge) :
    neighbors (insertEdge g u e) u = neighbors g u ++ [e] := by
  simp [neighbors, lookupAdj_insertEdge_self]

theorem neighbors_insertEdge_ne (g : Graph) (u n : Node) (e : Edge) (h : n ≠ u) :
    neighbors (insertEdge g u e) n = neighbors g n := by
  simp [neighbors, lookupAdj_insertEdge_ne g u n e h]

theorem known_insertEdge_ne (g : Graph) (u n : Node) (e : Edge) (h : n ≠ u) :
    known (insertEdge g u e) n = known g n := by
  simp [known, lookupAdj_insertEdge_ne g u n e h]

theorem neighbors_of_not_known (g : Graph) (n : Node) (h : known g n = false) :
    neighbors g n = [] := by
  unfold known at h
  unfold neighbors
  cases hl : lookupAdj g n with
  | none => rfl
  | some es => rw [hl] at h; simp at h

/-- C4: for every node `n` and every mode, `shortest_path(n, n, mode)`
returns exactly `([n], [], [])`, with no traversal, whether or not `n`
occurs anywhere in the graph. -/
theorem claim_C4_self_path (g : Graph) (n : Node) (m : Bool) :
    dijkstra g n n m = some ([n], [], []) := by
  unfold dijkstra
  simp

/-- C8: a node with no adjacency entry has an empty neighbour list (the
lookup cannot fail and creates no entry — it is pure), and such a node
still counts as unknown for the start check of a later query. -/
theorem claim_C8_neighbors_default (g : Graph) (n : Node) (h : known g n = false) :
    neighbors g n = [] ∧
      ∀ (e : Node) (m : Bool), n ≠ e → dijkstra g n e m = some ([], [], []) := by
  refine ⟨neighbors_of_not_known g n h, ?_⟩
  intro e m hne
  unfold dijkstra
  simp [h, hne]

/-- Witness for C8 at a concrete graph and node. -/
theorem claim_C8_witness :
    neighbors [(0, [⟨1, 2, "low", "", false⟩])] 5 = [] ∧
      ∀ (e : Node) (m : Bool), 5 ≠ e →
        dijkstra [(0, [⟨1, 2, "low", "", false⟩])] 5 e m = some ([], [], []) :=
  claim_C8_neighbors_default [(0, [⟨1, 2, "low", "", false⟩])] 5 (by decide)

/-- C2: the effective cost of a traversed edge is its base weight in
normal mode; in learner mode it is the base weight plus the crowd bias
(0 for Low, `0.2 * w` for Medium, `0.5 * w` for High) plus the hazard
penalty (`2.0 * w` when flagged, else 0). -/
theorem claim_C2_effective_cost (tgt : Node) (w : ℚ) (c tp : String) (h : Bool)
    (hc : c = "low" ∨ c = "medium" ∨ c = "high") :
    effW false ⟨tgt, w, c, tp, h⟩ = w ∧
      effW true ⟨tgt, w, c, tp, h⟩ = w + specCrowdBias c w + specHazardPenalty h w := by
  constructor
  · simp [effW, edgeBias]
  · rcases hc with hc | hc | hc <;> subst hc <;>
      cases h <;>
      simp [effW, edgeBias, crowd_bias, blind_spot_penalty, specCrowdBias,
        specHazardPenalty] <;> ring

/-- Witness for C2 on a concrete edge of each congestion class. -/
theorem claim_C2_witness :
    effW false ⟨1, 10, "medium", "", true⟩ = 10 ∧
      effW true ⟨1, 10, "medium", "", true⟩ =
        10 + specCrowdBias "medium" 10 + specHazardPenalty true 10 :=
  claim_C2_effective_cost 1 10 "medium" "" true (Or.inr (Or.inl rfl))

/-- C3: `add_edge` fails with the invalid-cost error exactly on negative
base cost (leaving the store unchanged — the error branch returns before
any mutation), and on non-negative cost appends the edge to the source
node's list with no further validation: the entry of `u` grows by exactly
this edge (self-loops and parallel duplicates included) and every other
node's entry and known-status are untouched. -/
theorem claim_C3_add_edge (g : Graph) (u v : Node) (w : ℚ) (c t : String) (b : Bool) :
    (w < 0 → add_edge g u v w c t b = Except.error GraphError.invalidEdgeCost) ∧
      (0 ≤ w → add_edge g u v w c t b = Except.ok (insertEdge g u ⟨v, w, c, t, b⟩) ∧
        neighbors (insertEdge g u ⟨v, w, c, t, b⟩) u = neighbors g u ++ [⟨v, w, c, t, b⟩] ∧
        ∀ n, n ≠ u → neighbors (insertEdge g u ⟨v, w, c, t, b⟩) n = neighbors g n ∧
          known (insertEdge g u ⟨v, w, c, t, b⟩) n = known g n) := by
  constructor
  · intro hw
    simp [add_edge, hw]
  · intro hw
    refine ⟨by simp [add_edge, not_lt.mpr hw], neighbors_insertEdge_self g u _, ?_⟩
    intro n hn
    exact ⟨neighbors_insertEdge_ne g u n _ hn, known_insertEdge_ne g u n _ hn⟩

/-- Witness for C3: a negative-cost insertion fails, a duplicate self-loop
insertion succeeds and appends. -/
theorem claim_C3_witness :
    (add_edge [(7, [⟨7, 1, "low", "", false⟩])] 7 7 (-1) "low" "" false =
        Except.error GraphError.invalidEdgeCost) ∧
      (add_edge [(7, [⟨7, 1, "low", "", false⟩])] 7 7 1 "low" "" false =
          Except.ok (insertEdge [(7, [⟨7, 1, "low", "", false⟩])] 7 ⟨7, 1, "low", "", false⟩) ∧
        neighbors (insertEdge [(7, [⟨7, 1, "low", "", false⟩])] 7 ⟨7, 1, "low", "", false⟩) 7 =
          neighbors [(7, [⟨7, 1, "low", "", false⟩])] 7 ++ [⟨7, 1, "low", "", false⟩]) := by
  refine ⟨(claim_C3_add_edge [(7, [⟨7, 1, "low", "", false⟩])] 7 7 (-1) "low" "" false).1
      (by norm_num), ?_, ?_⟩
  · exact ((claim_C3_add_edge [(7, [⟨7, 1, "low", "", false⟩])] 7 7 1 "low" "" false).2
      (by norm_num)).1
  · exact ((claim_C3_add_edge [(7, [⟨7, 1, "low", "", false⟩])] 7 7 1 "low" "" false).2
      (by norm_num)).2.1

end Residency

namespace Residency

/-- Every successful query result carries exactly the annotation lists the
extraction pass computes from the returned node sequence. -/
theorem dijkstra_shape (g : Graph) (s e : Node) (m : Bool) (p : List Node)
    (tips alerts : List String) (h : dijkstra g s e m = some (p, tips, alerts)) :
    tips = tipsOf g m p ∧ alerts = alertsOf g p := by
  unfold dijkstra at h
  split at h
  · simp only [Option.some.injEq, Prod.mk.injEq] at h
    obtain ⟨h1, h2, h3⟩ := h
    subst h1; subst h2; subst h3
    simp [tipsOf, alertsOf, pathPairs]
  · split at h
    · simp only [Option.some.injEq, Prod.mk.injEq] at h
      obtain ⟨h1, h2, h3⟩ := h
      subst h1; subst h2; subst h3
      simp [tipsOf, alertsOf, pathPairs]
    · split at h
      · exact absurd h (by simp)
      · split at h
        · exact absurd h (by simp)
        · dsimp only at h
          split at h
          · simp only [Option.some.injEq, Prod.mk.injEq] at h
            obtain ⟨h1, h2, h3⟩ := h
            subst h1; subst h2; subst h3
            simp [tipsOf, alertsOf, pathPairs]
          · simp only [Option.some.injEq, Prod.mk.injEq] at h
            obtain ⟨h1, h2, h3⟩ := h
            subst h1; subst h2; subst h3
            exact ⟨rfl, rfl⟩

end Residency

namespace Residency

/-- C6: in either mode, the returned hazard-alert sequence is the same
mode-independent function of the returned path, and whenever a traversed
consecutive pair is matched (first-inserted edge wins) by a hazard-flagged
edge, the formatted alert for that pair is present. -/
theorem claim_C6_hazard_alerts (g : Graph) (s e : Node) (m : Bool) (p : List Node)
    (tips alerts : List String) (h : dijkstra g s e m = some (p, tips, alerts)) :
    alerts = alertsOf g p ∧
      ∀ u v, (u, v) ∈ pathPairs p → ∀ ed, firstEdge g u v = some ed →
        ed.blind_spot = true → alertMsg u v ∈ alerts := by
  obtain ⟨-, ha⟩ := dijkstra_shape g s e m p tips alerts h
  subst ha
  refine ⟨rfl, ?_⟩
  intro u v hmem ed hed hb
  unfold alertsOf
  exact List.mem_filterMap.mpr ⟨(u, v), hmem, by simp [hed, hb]⟩

/-- Witness for C6: the normal-mode query on the corridor store traverses
the hazard edge and reports it. -/
theorem claim_C6_witness :
    ["Blind spot at 0 to 1"] = alertsOf exGraphXYZ [0, 1, 2] ∧
      ∀ u v, (u, v) ∈ pathPairs [0, 1, 2] → ∀ ed, firstEdge exGraphXYZ u v = some ed →
        ed.blind_spot = true → alertMsg u v ∈ ["Blind spot at 0 to 1"] :=
  claim_C6_hazard_alerts exGraphXYZ 0 2 false [0, 1, 2] []
    ["Blind spot at 0 to 1"] (by with_unfolding_all decide)

/-- C7: the advisory sequence is empty in normal mode even when traversed
edges carry advisory text, and in learner mode each matched traversed
edge's advisory is appended exactly when it is non-empty. -/
theorem claim_C7_advisories (g : Graph) (s e : Node) (m : Bool) (p : List Node)
    (tips alerts : List String) (h : dijkstra g s e m = some (p, tips, alerts)) :
    (m = false → tips = []) ∧ (m = true → tips = specLearnerTips g p) := by
  obtain ⟨ht, -⟩ := dijkstra_shape g s e m p tips alerts h
  subst ht
  constructor
  · rintro rfl
    unfold tipsOf
    refine List.filterMap_eq_nil_iff.mpr ?_
    intro uv _
    cases hfe : firstEdge g uv.1 uv.2 <;> simp
  · rintro rfl
    unfold tipsOf specLearnerTips
    congr 1
    funext uv
    cases hfe : firstEdge g uv.1 uv.2 <;> simp

/-- Witness for C7: the learner-mode query on the corridor store collects
exactly the non-empty advisories of the matched edges. -/
theorem claim_C7_witness :
    (true = false → ["Caution: merge zone", "Smooth braking"] = []) ∧
      (true = true → ["Caution: merge zone", "Smooth braking"] =
        specLearnerTips exGraphXYZ [0, 1, 2]) :=
  claim_C7_advisories exGraphXYZ 0 2 true [0, 1, 2]
    ["Caution: merge zone", "Smooth braking"] ["Blind spot at 0 to 1"]
    (by with_unfolding_all decide)

end Residency

namespace Residency

/-! Congruence of the query under normalisation of out-of-domain
congestion classes. -/

theorem normEdgeCrowd_fields (e : Edge) :
    (normEdgeCrowd e).target = e.target ∧ (normEdgeCrowd e).weight = e.weight ∧
      (normEdgeCrowd e).tip = e.tip ∧ (normEdgeCrowd e).blind_spot = e.blind_spot := by
  unfold normEdgeCrowd
  split <;> simp

theorem crowd_bias_default (c : String) (w : ℚ)
    (h1 : c ≠ "low") (h2 : c ≠ "medium") (h3 : c ≠ "high") :
    crowd_bias c w = 0 := by
  simp [crowd_bias, h1, h2, h3]

theorem effW_normEdgeCrowd (m : Bool) (e : Edge) : effW m (normEdgeCrowd e) = effW m e := by
  unfold normEdgeCrowd
  split
  · rfl
  · rename_i hc
    push_neg at hc
    simp only [effW, edgeBias, crowd_bias_default e.crowd e.weight hc.1 hc.2.1 hc.2.2]
    cases m <;> simp [crowd_bias]

theorem lookupAdj_normGraph (g : Graph) (u : Node) :
    lookupAdj (normGraph g) u = (lookupAdj g u).map (List.map normEdgeCrowd) := by
  induction g with
  | nil => rfl
  | cons p rest ih =>
    obtain ⟨k, es⟩ := p
    by_cases hk : k = u
    · simp [normGraph, lookupAdj, hk]
    · simp only [normGraph, List.map_cons, lookupAdj, hk, if_false]
      simpa [normGraph] using ih

theorem neighbors_normGraph (g : Graph) (u : Node) :
    neighbors (normGraph g) u = (neighbors g u).map normEdgeCrowd := by
  unfold neighbors
  rw [lookupAdj_normGraph]
  cases lookupAdj g u <;> rfl

theorem known_normGraph (g : Graph) (u : Node) : known (normGraph g) u = known g u := by
  unfold known
  rw [lookupAdj_normGraph]
  cases lookupAdj g u <;> rfl

theorem numEdges_normGraph (g : Graph) : numEdges (normGraph g) = numEdges g := by
  unfold numEdges normGraph
  rw [List.map_map]
  congr 1
  apply List.map_congr_left
  intro p _
  simp

theorem relax_normEdgeCrowd (m : Bool) (du : ℚ) (u : Node) (es : List Edge) (s : DState) :
    relax m du u (es.map normEdgeCrowd) s = relax m du u es s := by
  induction es generalizing s with
  | nil => rfl
  | cons e rest ih =>
    obtain ⟨ht, hw, -, -⟩ := normEdgeCrowd_fields e
    simp only [List.map_cons, relax, effW_normEdgeCrowd, ht]
    split <;> exact ih _

theorem dloop_normGraph (g : Graph) (endN : Node) (m : Bool) (fuel : ℕ) (s : DState) :
    dloop (normGraph g) endN m fuel s = dloop g endN m fuel s := by
  induction fuel generalizing s with
  | zero => rfl
  | succ n ih =>
    simp only [dloop]
    cases findMin s.pq with
    | none => rfl
    | some du =>
      simp only [neighbors_normGraph, relax_normEdgeCrowd]
      split
      · exact ih _
      · split
        · rfl
        · exact ih _

theorem firstEdge_normGraph (g : Graph) (u v : Node) :
    firstEdge (normGraph g) u v = (firstEdge g u v).map normEdgeCrowd := by
  unfold firstEdge
  rw [neighbors_normGraph, List.find?_map]
  have hp : ((fun e => decide (e.target = v)) ∘ normEdgeCrowd) =
      (fun e : Edge => decide (e.target = v)) := by
    funext e
    simp [Function.comp, (normEdgeCrowd_fields e).1]
  rw [hp]

theorem tipsOf_normGraph (g : Graph) (m : Bool) (p : List Node) :
    tipsOf (normGraph g) m p = tipsOf g m p := by
  unfold tipsOf
  congr 1
  funext uv
  rw [firstEdge_normGraph]
  cases hf : firstEdge g uv.1 uv.2 with
  | none => rfl
  | some e => simp [(normEdgeCrowd_fields e).2.2.1]

theorem alertsOf_normGraph (g : Graph) (p : List Node) :
    alertsOf (normGraph g) p = alertsOf g p := by
  unfold alertsOf
  congr 1
  funext uv
  rw [firstEdge_normGraph]
  cases hf : firstEdge g uv.1 uv.2 with
  | none => rfl
  | some e => simp [(normEdgeCrowd_fields e).2.2.2]

theorem dijkstra_normGraph (g : Graph) (s e : Node) (m : Bool) :
    dijkstra (normGraph g) s e m = dijkstra g s e m := by
  unfold dijkstra
  rw [known_normGraph, numEdges_normGraph, dloop_normGraph]
  cases dloop g e m (1 + numEdges g) (startState s) with
  | none => rfl
  | some st =>
    simp only
    cases backtrace st.prev (2 + numEdges g) e [] with
    | none => rfl
    | some rp =>
      simp only
      split
      · rfl
      · rw [tipsOf_normGraph, alertsOf_normGraph]

/-- C10: `add_edge` accepts any congestion-class value without validation;
learner-mode search gives every unrecognised class the crowd bias 0,
exactly as for Low; and normalising every unrecognised class to Low
leaves the entire query result (route, advisories, alerts) unchanged. -/
theorem claim_C10_crowd_domain (g : Graph) (u v : Node) (w : ℚ) (c t : String) (b : Bool)
    (s e : Node) (m : Bool) (hw : 0 ≤ w) :
    add_edge g u v w c t b = Except.ok (insertEdge g u ⟨v, w, c, t, b⟩) ∧
      (c ≠ "low" → c ≠ "medium" → c ≠ "high" →
        ∀ w' : ℚ, crowd_bias c w' = 0 ∧ crowd_bias c w' = crowd_bias "low" w') ∧
      dijkstra (normGraph g) s e m = dijkstra g s e m := by
  refine ⟨by simp [add_edge, not_lt.mpr hw], ?_, dijkstra_normGraph g s e m⟩
  intro h1 h2 h3 w'
  rw [crowd_bias_default c w' h1 h2 h3]
  exact ⟨rfl, by simp [crowd_bias]⟩

/-- Witness for C10 on the out-of-domain example store. -/
theorem claim_C10_witness :
    add_edge exGraphOdd 2 3 1 "weird" "" false =
        Except.ok (insertEdge exGraphOdd 2 ⟨3, 1, "weird", "", false⟩) ∧
      ("weird" ≠ "low" → "weird" ≠ "medium" → "weird" ≠ "high" →
        ∀ w' : ℚ, crowd_bias "weird" w' = 0 ∧ crowd_bias "weird" w' = crowd_bias "low" w') ∧
      dijkstra (normGraph exGraphOdd) 0 1 true = dijkstra exGraphOdd 0 1 true :=
  claim_C10_crowd_domain exGraphOdd 2 3 1 "weird" "" false 0 1 true (by norm_num)

end Residency

namespace Residency

/-! Utilities for the search invariant development. -/

theorem oLEO_refl (a : Option ℚ) : oLEO a a := by
  cases a <;> simp [oLEO]

theorem oLEO_trans {a b c : Option ℚ} (h1 : oLEO a b) (h2 : oLEO b c) : oLEO a c := by
  cases a <;> cases b <;> cases c <;> simp_all [oLEO]
  exact le_trans h1 h2

theorem oLE_of_oLEO {a b : Option ℚ} {q : ℚ} (h1 : oLEO a b) (h2 : oLE b q) : oLE a q := by
  cases a <;> cases b <;> simp_all [oLEO, oLE]
  exact le_trans h1 h2

theorem oLE_mono {a : Option ℚ} {q q' : ℚ} (h1 : oLE a q) (h2 : q ≤ q') : oLE a q' := by
  cases a <;> simp_all [oLE]
  exact le_trans h1 h2

theorem oLE_some {a : Option ℚ} {q : ℚ} (h : oLE a q) : ∃ x, a = some x ∧ x ≤ q := by
  cases a
  · exact absurd h id
  · exact ⟨_, rfl, h⟩

theorem not_ltO {q : ℚ} {d : Option ℚ} (h : ¬ ltO q d) : ∃ x, d = some x ∧ x ≤ q := by
  cases d
  · exact absurd trivial h
  · exact ⟨_, rfl, not_lt.mp h⟩

theorem findMin_none_iff (l : List (ℚ × Node)) : findMin l = none ↔ l = [] := by
  cases l with
  | nil => simp [findMin]
  | cons x xs =>
    cases hm : findMin xs <;> simp [findMin, hm]

theorem findMin_mem {l : List (ℚ × Node)} {x : ℚ × Node} (h : findMin l = some x) :
    x ∈ l := by
  induction l with
  | nil => simp [findMin] at h
  | cons y ys ih =>
    rw [findMin] at h
    cases hm : findMin ys with
    | none =>
      rw [hm] at h
      simp only [Option.some.injEq] at h
      subst h
      exact List.mem_cons_self y ys
    | some m =>
      rw [hm] at h
      simp only [Option.some.injEq] at h
      unfold pqSelect at h
      split at h
      · subst h
        exact List.mem_cons_self y ys
      · subst h
        exact List.mem_cons_of_mem y (ih hm)

theorem findMin_fst_le {l : List (ℚ × Node)} :
    ∀ {x : ℚ × Node}, findMin l = some x → ∀ y ∈ l, x.1 ≤ y.1 := by
  induction l with
  | nil => intro x h; simp [findMin] at h
  | cons z ys ih =>
    intro x h
    rw [findMin] at h
    cases hm : findMin ys with
    | none =>
      rw [hm] at h
      simp only [Option.some.injEq] at h
      subst h
      have hys : ys = [] := (findMin_none_iff ys).mp hm
      subst hys
      intro y hy
      simp at hy
      subst hy
      exact le_refl _
    | some m =>
      rw [hm] at h
      simp only [Option.some.injEq] at h
      unfold pqSelect at h
      intro y hy
      rcases List.mem_cons.mp hy with rfl | hmem
      · split at h
        · subst h
          exact le_refl _
        · rename_i hc
          push_neg at hc
          subst h
          exact hc.1
      · split at h
        · rename_i hc
          subst h
          rcases hc with h1 | h1
          · exact le_trans (le_of_lt h1) (ih hm y hmem)
          · exact le_trans (le_of_eq h1.1) (ih hm y hmem)
        · subst h
          exact ih hm y hmem

theorem lookupAdj_mem {g : Graph} {u : Node} {es : List Edge}
    (h : lookupAdj g u = some es) : (u, es) ∈ g := by
  induction g with
  | nil => simp [lookupAdj] at h
  | cons p rest ih =>
    obtain ⟨k, es'⟩ := p
    rw [lookupAdj] at h
    split at h
    · rename_i hk
      subst hk
      simp at h
      simp [h]
    · simp [ih h]

theorem valid_neighbors {g : Graph} (hv : ValidGraph g) {u : Node} {e : Edge}
    (h : e ∈ neighbors g u) : 0 ≤ e.weight := by
  unfold neighbors at h
  cases hl : lookupAdj g u with
  | none => rw [hl] at h; simp at h
  | some es =>
    rw [hl] at h
    exact hv (u, es) (lookupAdj_mem hl) e h

theorem crowd_bias_nonneg {c : String} {w : ℚ} (hw : 0 ≤ w) : 0 ≤ crowd_bias c w := by
  unfold crowd_bias
  split
  · exact le_refl 0
  · split
    · positivity
    · split
      · positivity
      · exact le_refl 0

theorem effW_nonneg {m : Bool} {e : Edge} (hw : 0 ≤ e.weight) : 0 ≤ effW m e := by
  unfold effW edgeBias
  cases m
  · simpa using hw
  · simp only [if_true]
    have h1 : 0 ≤ crowd_bias e.crowd e.weight := crowd_bias_nonneg hw
    have h2 : 0 ≤ blind_spot_penalty e.blind_spot e.weight := by
      unfold blind_spot_penalty
      split
      · positivity
      · exact le_refl 0
    linarith

theorem target_mem_targetsF {g : Graph} {u : Node} {e : Edge}
    (h : e ∈ neighbors g u) : e.target ∈ targetsF g := by
  unfold neighbors at h
  cases hl : lookupAdj g u with
  | none => rw [hl] at h; simp at h
  | some es =>
    rw [hl] at h
    unfold targetsF
    rw [List.mem_toFinset, List.mem_flatten]
    exact ⟨es.map Edge.target, List.mem_map.mpr ⟨(u, es), lookupAdj_mem hl, rfl⟩,
      List.mem_map.mpr ⟨e, h, rfl⟩⟩

theorem neighbors_cons (k : Node) (es : List Edge) (rest : Graph) (v : Node) :
    neighbors ((k, es) :: rest) v = if k = v then es else neighbors rest v := by
  unfold neighbors
  simp only [lookupAdj]
  split <;> rfl

theorem sum_deg_le (g : Graph) (S : Finset Node) :
    (∑ v ∈ S, (neighbors g v).length) ≤ numEdges g := by
  induction g generalizing S with
  | nil =>
    have : ∀ v ∈ S, (neighbors ([] : Graph) v).length = 0 := by
      intro v _
      simp [neighbors, lookupAdj]
    simp [Finset.sum_congr rfl this, numEdges]
  | cons p rest ih =>
    obtain ⟨k, es⟩ := p
    have hnum : numEdges ((k, es) :: rest) = es.length + numEdges rest := by
      simp [numEdges]
    rw [hnum]
    by_cases hk : k ∈ S
    · rw [← Finset.add_sum_erase S _ hk]
      have h1 : (neighbors ((k, es) :: rest) k).length = es.length := by
        simp [neighbors_cons]
      have h2 : ∑ v ∈ S.erase k, (neighbors ((k, es) :: rest) v).length =
          ∑ v ∈ S.erase k, (neighbors rest v).length := by
        refine Finset.sum_congr rfl ?_
        intro v hv
        have : k ≠ v := fun hh => (Finset.mem_erase.mp hv).1 hh.symm
        simp [neighbors_cons, this]
      rw [h1, h2]
      exact Nat.add_le_add_left (ih (S.erase k)) es.length
    · have h2 : ∑ v ∈ S, (neighbors ((k, es) :: rest) v).length =
          ∑ v ∈ S, (neighbors rest v).length := by
        refine Finset.sum_congr rfl ?_
        intro v hv
        have : k ≠ v := fun hh => hk (hh ▸ hv)
        simp [neighbors_cons, this]
      rw [h2]
      exact le_trans (ih S) (Nat.le_add_left _ _)

theorem relevantF_card_le (g : Graph) (start : Node) :
    (relevantF g start).card ≤ 1 + numEdges g := by
  unfold relevantF
  refine le_trans (Finset.card_insert_le _ _) ?_
  rw [Nat.add_comm]
  refine Nat.add_le_add_left ?_ 1
  unfold targetsF
  refine le_trans (List.toFinset_card_le _) ?_
  rw [List.length_flatten]
  unfold numEdges
  rw [List.map_map]
  apply le_of_eq
  congr 1
  apply List.map_congr_left
  intro p _
  simp

theorem chaincost_cast {g : Graph} {m : Bool} {l : List Node} {c c' : ℚ}
    (h : ChainCost g m l c) (he : c = c') : ChainCost g m l c' := he ▸ h

theorem reach_cast {g : Graph} {m : Bool} {s v : Node} {c c' : ℚ}
    (h : Reach g m s v c) (he : c = c') : Reach g m s v c' := he ▸ h

theorem chain_snoc {g : Graph} {m : Bool} {l : List Node} {c : ℚ} {u : Node} {e : Edge}
    (h : ChainCost g m l c) (hl : l.getLast? = some u) (he : e ∈ neighbors g u) :
    ChainCost g m (l ++ [e.target]) (c + effW m e) := by
  induction h with
  | single u' =>
    simp at hl
    subst hl
    exact chaincost_cast (ChainCost.cons _ e [] 0 he (ChainCost.single e.target))
      (by ring)
  | cons u' e' rest c' he' hc ih =>
    have hl' : (e'.target :: rest).getLast? = some u := by
      rw [← hl]
      simp [List.getLast?_cons_cons]
    have := ih hl'
    exact chaincost_cast (ChainCost.cons u' e' (rest ++ [e.target]) (c' + effW m e) he' this)
      (by ring)

theorem reach_prepend {g : Graph} {m : Bool} {u v : Node} {c : ℚ} {e : Edge}
    (he : e ∈ neighbors g u) (h : Reach g m e.target v c) :
    Reach g m u v (effW m e + c) := by
  induction h with
  | base =>
    exact reach_cast (Reach.step u 0 e (Reach.base) he) (by ring)
  | step u' c' e' hr he' ih =>
    exact reach_cast (Reach.step _ _ e' ih he') (by ring)

theorem reach_of_chain {g : Graph} {m : Bool} {l : List Node} {c : ℚ}
    (h : ChainCost g m l c) :
    ∀ {a b : Node}, l.head? = some a → l.getLast? = some b → Reach g m a b c := by
  induction h with
  | single u =>
    intro a b ha hb
    simp at ha hb
    subst ha; subst hb
    exact Reach.base
  | cons u e rest c' he hc ih =>
    intro a b ha hb
    simp at ha
    subst ha
    have hb' : (e.target :: rest).getLast? = some b := by
      rw [← hb]
      simp [List.getLast?_cons_cons]
    exact reach_prepend he (ih rfl hb')

theorem chain_of_reach {g : Graph} {m : Bool} {start v : Node} {c : ℚ}
    (h : Reach g m start v c) :
    ∃ l, ChainCost g m l c ∧ l.head? = some start ∧ l.getLast? = some v := by
  induction h with
  | base => exact ⟨[start], ChainCost.single start, rfl, rfl⟩
  | step u c' e hr he ih =>
    obtain ⟨l, hc, hh, hl⟩ := ih
    refine ⟨l ++ [e.target], chain_snoc hc hl he, ?_, ?_⟩
    · cases l with
      | nil => simp at hh
      | cons x xs => simpa using hh
    · simp

theorem reach_nonneg {g : Graph} {m : Bool} {start v : Node} {c : ℚ}
    (hv : ValidGraph g) (h : Reach g m start v c) : 0 ≤ c := by
  induction h with
  | base => exact le_refl 0
  | step u c' e hr he ih =>
    have := effW_nonneg (m := m) (valid_neighbors hv he)
    linarith

end Residency

namespace Residency

theorem relax_dist_mono (m : Bool) (du : ℚ) (u : Node) (es : List Edge) (s : DState) :
    ∀ v, oLEO ((relax m du u es s).dist v) (s.dist v) := by
  induction es generalizing s with
  | nil => intro v; exact oLEO_refl _
  | cons e rest ih =>
    intro v
    rw [relax]
    split
    · rename_i hlt
      refine oLEO_trans (ih _ v) ?_
      have hup : updD s.dist e.target (du + effW m e) v =
          if v = e.target then some (du + effW m e) else s.dist v := rfl
      show oLEO (updD s.dist e.target (du + effW m e) v) (s.dist v)
      rw [hup]
      split
      · rename_i hv
        rw [hv]
        cases hd : s.dist e.target with
        | none => trivial
        | some x =>
          rw [hd] at hlt
          exact le_of_lt hlt
      · exact oLEO_refl _
    · exact ih _ v

theorem relax_pq_length (m : Bool) (du : ℚ) (u : Node) (es : List Edge) (s : DState) :
    (relax m du u es s).pq.length ≤ s.pq.length + es.length := by
  induction es generalizing s with
  | nil => simp [relax]
  | cons e rest ih =>
    rw [relax]
    split
    · refine le_trans (ih _) ?_
      simp only [List.length_append, List.length_cons, List.length_nil]
      omega
    · refine le_trans (ih _) ?_
      simp only [List.length_cons]
      omega

theorem relax_covers (m : Bool) (du : ℚ) (u : Node) (es : List Edge) (s : DState) :
    ∀ e ∈ es, oLEO ((relax m du u es s).dist e.target) (some (du + effW m e)) := by
  induction es generalizing s with
  | nil => intro e he; simp at he
  | cons e rest ih =>
    intro e' he'
    rcases List.mem_cons.mp he' with rfl | hmem
    · rw [relax]
      split
      · refine oLEO_trans (relax_dist_mono m du u rest _ e'.target) ?_
        show oLEO (updD s.dist e'.target (du + effW m e') e'.target) _
        have hup : updD s.dist e'.target (du + effW m e') e'.target =
            some (du + effW m e') := by
          simp [updD]
        rw [hup]
        exact le_refl _
      · rename_i hlt
        refine oLEO_trans (relax_dist_mono m du u rest _ e'.target) ?_
        obtain ⟨x, hx, hle⟩ := not_ltO hlt
        rw [hx]
        exact hle
    · rw [relax]
      split
      · exact ih _ e' hmem
      · exact ih _ e' hmem

end Residency

namespace Residency

/-! Facts about queue removal, entry counting and settlement positions. -/

theorem removeFirst_sublist (l : List (ℚ × Node)) (a : ℚ × Node) :
    (removeFirst l a).Sublist l := by
  induction l with
  | nil => simp [removeFirst]
  | cons x xs ih =>
    rw [removeFirst]
    split
    · exact List.sublist_cons_self x xs
    · exact ih.cons₂ x

theorem mem_of_mem_removeFirst {l : List (ℚ × Node)} {a b : ℚ × Node}
    (h : b ∈ removeFirst l a) : b ∈ l :=
  (removeFirst_sublist l a).mem h

theorem mem_removeFirst_of_ne {l : List (ℚ × Node)} {a b : ℚ × Node}
    (hne : b ≠ a) (h : b ∈ l) : b ∈ removeFirst l a := by
  induction l with
  | nil => simp at h
  | cons x xs ih =>
    rw [removeFirst]
    rcases List.mem_cons.mp h with rfl | hmem
    · rw [if_neg hne]
      exact List.mem_cons_self _ _
    · split
      · exact hmem
      · exact List.mem_cons_of_mem _ (ih hmem)

theorem length_removeFirst {l : List (ℚ × Node)} {a : ℚ × Node} (h : a ∈ l) :
    (removeFirst l a).length + 1 = l.length := by
  induction l with
  | nil => simp at h
  | cons x xs ih =>
    rw [removeFirst]
    by_cases hx : x = a
    · rw [if_pos hx]
      simp
    · rw [if_neg hx]
      have hmem : a ∈ xs := by
        rcases List.mem_cons.mp h with rfl | hmem
        · exact absurd rfl hx
        · exact hmem
      simp only [List.length_cons]
      rw [← ih hmem]

theorem cnt_le_of_sublist {l l' : List (ℚ × Node)} (a : ℚ × Node) (h : l.Sublist l') :
    cnt a l ≤ cnt a l' := by
  induction h with
  | slnil => exact le_refl 0
  | cons x hs ih =>
    rw [cnt]
    omega
  | cons₂ x hs ih =>
    rw [cnt, cnt]
    omega

theorem cnt_removeFirst (l : List (ℚ × Node)) (a : ℚ × Node) :
    cnt a (removeFirst l a) = cnt a l - 1 := by
  induction l with
  | nil => simp [removeFirst, cnt]
  | cons x xs ih =>
    rw [removeFirst, cnt]
    by_cases hx : x = a
    · rw [if_pos hx, if_pos hx]
      omega
    · rw [if_neg hx, cnt, if_neg hx, ih]
      have : cnt a xs ≥ 0 := Nat.zero_le _
      omega

theorem cnt_pos_of_mem {l : List (ℚ × Node)} {a : ℚ × Node} (h : a ∈ l) : 1 ≤ cnt a l := by
  induction l with
  | nil => simp at h
  | cons x xs ih =>
    rw [cnt]
    rcases List.mem_cons.mp h with rfl | hmem
    · simp
    · have := ih hmem
      omega

theorem not_mem_of_cnt_zero {l : List (ℚ × Node)} {a : ℚ × Node} (h : cnt a l = 0) :
    a ∉ l := fun hm => by
  have := cnt_pos_of_mem hm
  omega

theorem idxOf_append_of_mem {a : Node} {l1 : List Node} (l2 : List Node) (h : a ∈ l1) :
    idxOf a (l1 ++ l2) = idxOf a l1 := by
  induction l1 with
  | nil => simp at h
  | cons x xs ih =>
    rw [List.cons_append, idxOf, idxOf]
    by_cases hx : x = a
    · rw [if_pos hx, if_pos hx]
    · rw [if_neg hx, if_neg hx]
      have hmem : a ∈ xs := by
        rcases List.mem_cons.mp h with rfl | hmem
        · exact absurd rfl hx
        · exact hmem
      rw [ih hmem]

theorem idxOf_append_of_not_mem {a : Node} {l1 : List Node} (l2 : List Node) (h : a ∉ l1) :
    idxOf a (l1 ++ l2) = l1.length + idxOf a l2 := by
  induction l1 with
  | nil => simp [idxOf]
  | cons x xs ih =>
    rw [List.cons_append, idxOf]
    have hx : x ≠ a := fun hh => h (hh ▸ List.mem_cons_self x xs)
    rw [if_neg hx]
    have hmem : a ∉ xs := fun hm => h (List.mem_cons_of_mem _ hm)
    rw [ih hmem]
    simp only [List.length_cons]
    omega

theorem idxOf_lt_length {a : Node} {l : List Node} (h : a ∈ l) : idxOf a l < l.length := by
  induction l with
  | nil => simp at h
  | cons x xs ih =>
    rw [idxOf]
    by_cases hx : x = a
    · rw [if_pos hx]
      simp
    · rw [if_neg hx]
      have hmem : a ∈ xs := by
        rcases List.mem_cons.mp h with rfl | hmem
        · exact absurd rfl hx
        · exact hmem
      simp only [List.length_cons]
      have := ih hmem
      omega

end Residency

namespace Residency

/-- Frontier-cut bound: when the least queue entry has key `k`, every
start-anchored reachable cost is at least `k`, unless its endpoint is
already settled with a distance below that cost. -/
theorem cut_bound {g : Graph} {m : Bool} {start endN : Node} {s : DState} {fin : List Node}
    (hv : ValidGraph g) (hInv : Inv g m start endN s fin) (hend : endN ∉ fin)
    {k : ℚ} {u : Node} (hfm : findMin s.pq = some (k, u)) :
    ∀ v c, Reach g m start v c → k ≤ c ∨ (v ∈ fin ∧ oLE (s.dist v) c) := by
  intro v c hr
  induction hr with
  | base =>
    by_cases hs : start ∈ fin
    · right
      refine ⟨hs, ?_⟩
      rw [hInv.dist_start]
      exact le_refl (0 : ℚ)
    · left
      have hne : s.dist start ≠ none := by
        rw [hInv.dist_start]
        simp
      obtain ⟨k0, hk0mem, hk0⟩ : ∃ k0 : ℚ, ((k0, start) ∈ s.pq ∧ s.dist start = some k0) := by
        by_contra hno
        exact hs ((hInv.fin_final start).mpr ⟨hne, hno⟩)
      have hk00 : k0 = 0 := by
        rw [hInv.dist_start] at hk0
        exact (Option.some.inj hk0).symm
      have hkle := findMin_fst_le hfm (k0, start) hk0mem
      subst hk00
      exact hkle
  | step u' c' e hr' he ih =>
    have hw : 0 ≤ effW m e := effW_nonneg (valid_neighbors hv he)
    rcases ih with h1 | ⟨hfin, hle⟩
    · left
      linarith
    · have hu'ne : u' ≠ endN := fun hh => hend (hh ▸ hfin)
      obtain ⟨a, ha, halec⟩ := oLE_some hle
      have hrel := hInv.relaxed u' hfin hu'ne e he a ha
      obtain ⟨dt, hdt, hdtle⟩ := oLE_some hrel
      by_cases ht : e.target ∈ fin
      · right
        refine ⟨ht, ?_⟩
        rw [hdt]
        show dt ≤ c' + effW m e
        linarith
      · left
        obtain ⟨kt, hktmem, hkt⟩ :
            ∃ kt : ℚ, ((kt, e.target) ∈ s.pq ∧ s.dist e.target = some kt) := by
          by_contra hno
          refine ht ((hInv.fin_final e.target).mpr ⟨?_, hno⟩)
          rw [hdt]
          simp
        have hktdt : kt = dt := by
          rw [hdt] at hkt
          exact (Option.some.inj hkt).symm
        have hkle := findMin_fst_le hfm (kt, e.target) hktmem
        subst hktdt
        simp only at hkle
        linarith

/-- Dropping a stale queue entry preserves the loop invariant. -/
theorem stale_preserve {g : Graph} {m : Bool} {start endN : Node} {s : DState} {fin : List Node}
    (hInv : Inv g m start endN s fin)
    {k : ℚ} {u : Node} (hfm : findMin s.pq = some (k, u)) (hst : gtO k (s.dist u)) :
    Inv g m start endN ⟨s.dist, s.prev, removeFirst s.pq (k, u)⟩ fin := by
  refine ⟨?_, ?_, ?_, ?_, ?_, hInv.fin_nodup, hInv.fin_rel, ?_, hInv.dist_start,
    hInv.prev_start, hInv.prev_some, hInv.prev_edge, hInv.prev_fin, hInv.prev_idx,
    hInv.opt, hInv.relaxed⟩
  · intro x hx
    exact hInv.pq_rel x (mem_of_mem_removeFirst hx)
  · intro x hx
    exact hInv.pq_ge x (mem_of_mem_removeFirst hx)
  · intro x hx
    exact hInv.pq_nonneg x (mem_of_mem_removeFirst hx)
  · intro k' v hd
    exact le_trans (cnt_le_of_sublist _ (removeFirst_sublist _ _)) (hInv.pq_once k' v hd)
  · intro v
    constructor
    · intro hv
      obtain ⟨h1, h2⟩ := (hInv.fin_final v).mp hv
      refine ⟨h1, ?_⟩
      rintro ⟨k', hk'mem, hk'⟩
      exact h2 ⟨k', mem_of_mem_removeFirst hk'mem, hk'⟩
    · rintro ⟨h1, h2⟩
      by_contra hv
      have : ¬ (s.dist v ≠ none ∧ ¬∃ k' : ℚ, ((k', v) ∈ s.pq ∧ s.dist v = some k')) :=
        fun hh => hv ((hInv.fin_final v).mpr hh)
      push_neg at this
      obtain ⟨k', hk'mem, hk'⟩ := this h1
      refine h2 ⟨k', ?_, hk'⟩
      refine mem_removeFirst_of_ne ?_ hk'mem
      intro heq
      have h1eq : k' = k := congrArg Prod.fst heq
      have h2eq : v = u := congrArg Prod.snd heq
      subst h1eq
      subst h2eq
      rw [hk'] at hst
      exact lt_irrefl k' (by exact hst)
  · intro v hvfin x hx
    exact hInv.fin_le v hvfin x (mem_of_mem_removeFirst hx)

end Residency

namespace Residency

/-- Settling a freshly popped (non-stale) node: its distance is final and
optimal, and the invariant transfers to the extended settlement list.
The end-node slot of the resulting invariant is the settled node itself,
recording that its outgoing edges are not yet relaxed. -/
theorem settle_preserve {g : Graph} {m : Bool} {start endN : Node} {s : DState}
    {fin : List Node} (hv : ValidGraph g) (hInv : Inv g m start endN s fin)
    (hend : endN ∉ fin) {k : ℚ} {u : Node}
    (hfm : findMin s.pq = some (k, u)) (hst : ¬ gtO k (s.dist u)) :
    s.dist u = some k ∧ u ∉ fin ∧
      Inv g m start u ⟨s.dist, s.prev, removeFirst s.pq (k, u)⟩ (fin ++ [u]) := by
  have hmemq : (k, u) ∈ s.pq := findMin_mem hfm
  have hdu : s.dist u = some k := by
    obtain ⟨a, ha, hale⟩ := oLE_some (hInv.pq_ge (k, u) hmemq)
    have : ¬ (a < k) := by
      rw [ha] at hst
      exact hst
    have hak : a = k := le_antisymm hale (not_lt.mp this)
    rw [ha, hak]
  have hufin : u ∉ fin := by
    intro hu
    obtain ⟨-, h2⟩ := (hInv.fin_final u).mp hu
    exact h2 ⟨k, hmemq, hdu⟩
  have hmem1 : ∀ v, v ∈ fin ++ [u] ↔ v ∈ fin ∨ v = u := by
    intro v
    simp
  have hk0 : 0 ≤ k := hInv.pq_nonneg (k, u) hmemq
  refine ⟨hdu, hufin, ?_, ?_, ?_, ?_, ?_, ?_, ?_, ?_, hInv.dist_start, hInv.prev_start,
    hInv.prev_some, hInv.prev_edge, ?_, ?_, ?_, ?_⟩
  · intro x hx
    exact hInv.pq_rel x (mem_of_mem_removeFirst hx)
  · intro x hx
    exact hInv.pq_ge x (mem_of_mem_removeFirst hx)
  · intro x hx
    exact hInv.pq_nonneg x (mem_of_mem_removeFirst hx)
  · intro k' v hd
    exact le_trans (cnt_le_of_sublist _ (removeFirst_sublist _ _)) (hInv.pq_once k' v hd)
  · intro v
    rw [hmem1 v]
    constructor
    · rintro (hvfin | rfl)
      · obtain ⟨h1, h2⟩ := (hInv.fin_final v).mp hvfin
        refine ⟨h1, ?_⟩
        rintro ⟨k', hk'mem, hk'⟩
        exact h2 ⟨k', mem_of_mem_removeFirst hk'mem, hk'⟩
      · refine ⟨by rw [hdu]; simp, ?_⟩
        rintro ⟨k', hk'mem, hk'⟩
        have hk'k : k' = k := by
          rw [hdu] at hk'
          exact (Option.some.inj hk').symm
        subst hk'k
        have hcnt1 : cnt (k', v) s.pq ≤ 1 := hInv.pq_once k' v hdu
        have hcnt0 : cnt (k', v) (removeFirst s.pq (k', v)) = 0 := by
          rw [cnt_removeFirst]
          omega
        exact not_mem_of_cnt_zero hcnt0 hk'mem
    · rintro ⟨h1, h2⟩
      by_cases hvu : v = u
      · exact Or.inr hvu
      · left
        refine (hInv.fin_final v).mpr ⟨h1, ?_⟩
        rintro ⟨k', hk'mem, hk'⟩
        refine h2 ⟨k', ?_, hk'⟩
        refine mem_removeFirst_of_ne ?_ hk'mem
        intro heq
        exact hvu (congrArg Prod.snd heq)
  · rw [List.nodup_append]
    refine ⟨hInv.fin_nodup, List.nodup_singleton u, ?_⟩
    intro a ha hb
    rw [List.mem_singleton] at hb
    subst hb
    exact hufin ha
  · intro v hvmem
    rcases (hmem1 v).mp hvmem with hvfin | hvu
    · exact hInv.fin_rel v hvfin
    · rw [hvu]
      exact hInv.pq_rel (k, u) hmemq
  · intro v hvmem x hx
    rcases (hmem1 v).mp hvmem with hvfin | hvu
    · exact hInv.fin_le v hvfin x (mem_of_mem_removeFirst hx)
    · rw [hvu, hdu]
      exact findMin_fst_le hfm x (mem_of_mem_removeFirst hx)
  · intro v u' hpv
    exact (hmem1 u').mpr (Or.inl (hInv.prev_fin v u' hpv))
  · intro v u' hpv hvmem
    rcases (hmem1 v).mp hvmem with hvfin | hvu
    · have hu'fin := hInv.prev_fin v u' hpv
      rw [idxOf_append_of_mem [u] hu'fin, idxOf_append_of_mem [u] hvfin]
      exact hInv.prev_idx v u' hpv hvfin
    · have hu'fin := hInv.prev_fin v u' hpv
      rw [hvu, idxOf_append_of_mem [u] hu'fin, idxOf_append_of_not_mem [u] hufin]
      have := idxOf_lt_length hu'fin
      omega
  · intro v hvmem c hr
    rcases (hmem1 v).mp hvmem with hvfin | hvu
    · exact hInv.opt v hvfin c hr
    · rcases cut_bound hv hInv hend hfm v c hr with h1 | ⟨hvfin, -⟩
      · rw [hvu, hdu]
        exact h1
      · exact absurd (hvu ▸ hvfin) hufin
  · intro w hwmem hwne e he a ha
    rcases (hmem1 w).mp hwmem with hwfin | rfl
    · have hwne' : w ≠ endN := fun hh => hend (hh ▸ hwfin)
      exact hInv.relaxed w hwfin hwne' e he a ha
    · exact absurd rfl hwne

end Residency

namespace Residency

theorem cnt_append (a : ℚ × Node) (l1 l2 : List (ℚ × Node)) :
    cnt a (l1 ++ l2) = cnt a l1 + cnt a l2 := by
  induction l1 with
  | nil => simp [cnt]
  | cons x xs ih =>
    rw [List.cons_append, cnt, cnt, ih]
    omega

theorem cnt_eq_zero_of_not_mem {l : List (ℚ × Node)} {a : ℚ × Node} (h : a ∉ l) :
    cnt a l = 0 := by
  induction l with
  | nil => rfl
  | cons x xs ih =>
    rw [cnt]
    have hx : ¬ (x = a) := fun hh => h (hh ▸ List.mem_cons_self x xs)
    rw [if_neg hx, ih (fun hm => h (List.mem_cons_of_mem _ hm))]

/-- Relaxing any suffix of the settled node's edge list preserves the
invariant together with the bookkeeping facts of the current iteration:
the settled node's distance stays `k`, every queue key stays at least
`k`, and settled distances stay at most `k`. -/
theorem relax_preserve {g : Graph} {m : Bool} {start u : Node} {fin1 : List Node} {k : ℚ}
    (hv : ValidGraph g) :
    ∀ (es : List Edge) (s : DState),
      (∀ e ∈ es, e ∈ neighbors g u) →
      Inv g m start u s fin1 →
      u ∈ fin1 →
      s.dist u = some k →
      (∀ x ∈ s.pq, k ≤ x.1) →
      (∀ v ∈ fin1, oLE (s.dist v) k) →
      0 ≤ k →
      Inv g m start u (relax m k u es s) fin1 ∧
        (relax m k u es s).dist u = some k ∧
        (∀ x ∈ (relax m k u es s).pq, k ≤ x.1) ∧
        (∀ v ∈ fin1, oLE ((relax m k u es s).dist v) k) := by
  intro es
  induction es with
  | nil =>
    intro s hes hInv hufin hdu hmin hfinle hk0
    exact ⟨hInv, hdu, hmin, hfinle⟩
  | cons e rest ih =>
    intro s hes hInv hufin hdu hmin hfinle hk0
    have hew : e ∈ neighbors g u := hes e (List.mem_cons_self e rest)
    have heffw : 0 ≤ effW m e := effW_nonneg (valid_neighbors hv hew)
    have hndk : k ≤ k + effW m e := by linarith
    have hnd0 : 0 ≤ k + effW m e := by linarith
    rw [relax]
    split
    · rename_i hlt
      have hwfin : e.target ∉ fin1 := by
        intro hwf
        obtain ⟨a, ha, hale⟩ := oLE_some (hfinle e.target hwf)
        rw [ha] at hlt
        have : k + effW m e < a := hlt
        linarith
      have hwu : e.target ≠ u := fun hh => hwfin (hh ▸ hufin)
      have hwstart : e.target ≠ start := by
        intro hh
        rw [hh, hInv.dist_start] at hlt
        have : k + effW m e < 0 := hlt
        linarith
      refine ih _ ?_ ?_ hufin ?_ ?_ ?_ hk0
      · intro e' he'
        exact hes e' (List.mem_cons_of_mem e he')
      · -- the invariant for the pushed state
        refine ⟨?_, ?_, ?_, ?_, ?_, hInv.fin_nodup, hInv.fin_rel, ?_, ?_, ?_, ?_, ?_,
          ?_, ?_, ?_, ?_⟩
        · intro x hx
          rcases List.mem_append.mp hx with hx | hx
          · exact hInv.pq_rel x hx
          · rw [List.mem_singleton] at hx
            subst hx
            exact Finset.mem_insert_of_mem (target_mem_targetsF hew)
        · intro x hx
          have hdx : (updD s.dist e.target (k + effW m e)) x.2 =
              if x.2 = e.target then some (k + effW m e) else s.dist x.2 := rfl
          show oLE ((updD s.dist e.target (k + effW m e)) x.2) x.1
          rw [hdx]
          rcases List.mem_append.mp hx with hx | hx
          · split
            · rename_i hxw
              obtain ⟨dw, hdw, hdwle⟩ := oLE_some (hInv.pq_ge x hx)
              rw [hxw] at hdw
              rw [hdw] at hlt
              have : k + effW m e < dw := hlt
              show k + effW m e ≤ x.1
              linarith
            · exact hInv.pq_ge x hx
          · rw [List.mem_singleton] at hx
            subst hx
            simp only [if_pos rfl]
            exact le_refl _
        · intro x hx
          rcases List.mem_append.mp hx with hx | hx
          · exact hInv.pq_nonneg x hx
          · rw [List.mem_singleton] at hx
            subst hx
            exact hnd0
        · intro k' v hd
          have hd' : (if v = e.target then some (k + effW m e) else s.dist v) = some k' := hd
          clear hd
          show cnt (k', v) (s.pq ++ [(k + effW m e, e.target)]) ≤ 1
          rw [cnt_append]
          by_cases hvw : v = e.target
          · rw [if_pos hvw] at hd'
            have hk' : k' = k + effW m e := (Option.some.inj hd').symm
            have hnotmem : (k', v) ∉ s.pq := by
              intro hmem
              obtain ⟨dw, hdw, hdwle⟩ := oLE_some (hInv.pq_ge (k', v) hmem)
              have hdw2 : s.dist v = some dw := hdw
              have hdwle2 : dw ≤ k' := hdwle
              rw [hvw] at hdw2
              rw [hdw2] at hlt
              have h1 : k + effW m e < dw := hlt
              rw [hk'] at hdwle2
              linarith
            rw [cnt_eq_zero_of_not_mem hnotmem]
            have hone : cnt (k', v) [(k + effW m e, e.target)] ≤ 1 := by
              rw [cnt, cnt]
              split <;> omega
            omega
          · rw [if_neg hvw] at hd'
            have hcnt2 : cnt (k', v) [(k + effW m e, e.target)] = 0 := by
              refine cnt_eq_zero_of_not_mem ?_
              rw [List.mem_singleton]
              intro hh
              have hvv : v = e.target := congrArg Prod.snd hh
              exact hvw hvv
            rw [hcnt2]
            have := hInv.pq_once k' v hd'
            omega
        · intro v
          have hdv : (updD s.dist e.target (k + effW m e)) v =
              if v = e.target then some (k + effW m e) else s.dist v := rfl
          constructor
          · intro hvfin
            have hvw : v ≠ e.target := fun hh => hwfin (hh ▸ hvfin)
            obtain ⟨h1, h2⟩ := (hInv.fin_final v).mp hvfin
            constructor
            · show (updD s.dist e.target (k + effW m e)) v ≠ none
              rw [hdv, if_neg hvw]
              exact h1
            · rintro ⟨k', hk'mem, hk'⟩
              show False
              have hk'2 : (if v = e.target then some (k + effW m e) else s.dist v) =
                  some k' := hk'
              rw [if_neg hvw] at hk'2
              rcases List.mem_append.mp hk'mem with hx | hx
              · exact h2 ⟨k', hx, hk'2⟩
              · rw [List.mem_singleton] at hx
                exact hvw (congrArg Prod.snd hx)
          · rintro ⟨h1, h2⟩
            have h1' : (if v = e.target then some (k + effW m e) else s.dist v) ≠ none := h1
            by_cases hvw : v = e.target
            · exfalso
              refine h2 ⟨k + effW m e, ?_, ?_⟩
              · refine List.mem_append_right _ ?_
                rw [List.mem_singleton, hvw]
              · show (updD s.dist e.target (k + effW m e)) v = some (k + effW m e)
                rw [hdv, if_pos hvw]
            · rw [if_neg hvw] at h1'
              refine (hInv.fin_final v).mpr ⟨h1', ?_⟩
              rintro ⟨k', hk'mem, hk'⟩
              refine h2 ⟨k', List.mem_append_left _ hk'mem, ?_⟩
              show (updD s.dist e.target (k + effW m e)) v = some k'
              rw [hdv, if_neg hvw]
              exact hk'
        · intro v hvfin x hx
          have hvw : v ≠ e.target := fun hh => hwfin (hh ▸ hvfin)
          show oLE ((updD s.dist e.target (k + effW m e)) v) x.1
          have hdv : (updD s.dist e.target (k + effW m e)) v =
              if v = e.target then some (k + effW m e) else s.dist v := rfl
          rw [hdv, if_neg hvw]
          rcases List.mem_append.mp hx with hx | hx
          · exact hInv.fin_le v hvfin x hx
          · rw [List.mem_singleton] at hx
            subst hx
            exact oLE_mono (hfinle v hvfin) hndk
        · show (updD s.dist e.target (k + effW m e)) start = some 0
          have hdv : (updD s.dist e.target (k + effW m e)) start =
              if start = e.target then some (k + effW m e) else s.dist start := rfl
          rw [hdv, if_neg (fun hh => hwstart hh.symm)]
          exact hInv.dist_start
        · show (updP s.prev e.target u) start = none
          have hpv : (updP s.prev e.target u) start =
              if start = e.target then some u else s.prev start := rfl
          rw [hpv, if_neg (fun hh => hwstart hh.symm)]
          exact hInv.prev_start
        · intro v hvstart hvd
          show ((updP s.prev e.target u) v).isSome
          have hpv : (updP s.prev e.target u) v =
              if v = e.target then some u else s.prev v := rfl
          rw [hpv]
          split
          · rfl
          · rename_i hvw
            refine hInv.prev_some v hvstart ?_
            have hvd' : (if v = e.target then some (k + effW m e) else s.dist v) ≠ none := hvd
            rw [if_neg hvw] at hvd'
            exact hvd' 
        · intro v u'' hp
          have hpv : (updP s.prev e.target u) v =
              if v = e.target then some u else s.prev v := rfl
          rw [show (⟨updD s.dist e.target (k + effW m e), updP s.prev e.target u,
            s.pq ++ [(k + effW m e, e.target)]⟩ : DState).prev = updP s.prev e.target u
            from rfl, hpv] at hp
          by_cases hvw : v = e.target
          · rw [if_pos hvw] at hp
            have huu : u'' = u := (Option.some.inj hp).symm
            subst huu
            refine ⟨e, hew, hvw.symm, k, ?_, ?_⟩
            · show (updD s.dist e.target (k + effW m e)) u'' = some k
              have : (updD s.dist e.target (k + effW m e)) u'' =
                  if u'' = e.target then some (k + effW m e) else s.dist u'' := rfl
              rw [this, if_neg (fun hh => hwu hh.symm)]
              exact hdu
            · show (updD s.dist e.target (k + effW m e)) v = some (k + effW m e)
              have : (updD s.dist e.target (k + effW m e)) v =
                  if v = e.target then some (k + effW m e) else s.dist v := rfl
              rw [this, if_pos hvw]
          · rw [if_neg hvw] at hp
            obtain ⟨e', he', htgt, a, ha, hav⟩ := hInv.prev_edge v u'' hp
            have hufin'' : u'' ∈ fin1 := hInv.prev_fin v u'' hp
            have huw : u'' ≠ e.target := fun hh => hwfin (hh ▸ hufin'')
            refine ⟨e', he', htgt, a, ?_, ?_⟩
            · show (updD s.dist e.target (k + effW m e)) u'' = some a
              have : (updD s.dist e.target (k + effW m e)) u'' =
                  if u'' = e.target then some (k + effW m e) else s.dist u'' := rfl
              rw [this, if_neg huw]
              exact ha
            · show (updD s.dist e.target (k + effW m e)) v = some (a + effW m e')
              have : (updD s.dist e.target (k + effW m e)) v =
                  if v = e.target then some (k + effW m e) else s.dist v := rfl
              rw [this, if_neg hvw]
              exact hav
        · intro v u'' hp
          have hpv : (updP s.prev e.target u) v =
              if v = e.target then some u else s.prev v := rfl
          show u'' ∈ fin1
          rw [show (⟨updD s.dist e.target (k + effW m e), updP s.prev e.target u,
            s.pq ++ [(k + effW m e, e.target)]⟩ : DState).prev = updP s.prev e.target u
            from rfl, hpv] at hp
          by_cases hvw : v = e.target
          · rw [if_pos hvw] at hp
            have huu : u'' = u := (Option.some.inj hp).symm
            subst huu
            exact hufin
          · rw [if_neg hvw] at hp
            exact hInv.prev_fin v u'' hp
        · intro v u'' hp hvfin
          have hvw : v ≠ e.target := fun hh => hwfin (hh ▸ hvfin)
          have hpv : (updP s.prev e.target u) v =
              if v = e.target then some u else s.prev v := rfl
          rw [show (⟨updD s.dist e.target (k + effW m e), updP s.prev e.target u,
            s.pq ++ [(k + effW m e, e.target)]⟩ : DState).prev = updP s.prev e.target u
            from rfl, hpv, if_neg hvw] at hp
          exact hInv.prev_idx v u'' hp hvfin
        · intro v hvfin c hr
          have hvw : v ≠ e.target := fun hh => hwfin (hh ▸ hvfin)
          show oLE ((updD s.dist e.target (k + effW m e)) v) c
          have hdv : (updD s.dist e.target (k + effW m e)) v =
              if v = e.target then some (k + effW m e) else s.dist v := rfl
          rw [hdv, if_neg hvw]
          exact hInv.opt v hvfin c hr
        · intro w' hw'fin hw'ne e' he' a ha
          have hw'w : w' ≠ e.target := fun hh => hwfin (hh ▸ hw'fin)
          have hdw' : (updD s.dist e.target (k + effW m e)) w' =
              if w' = e.target then some (k + effW m e) else s.dist w' := rfl
          rw [show (⟨updD s.dist e.target (k + effW m e), updP s.prev e.target u,
            s.pq ++ [(k + effW m e, e.target)]⟩ : DState).dist = updD s.dist e.target
            (k + effW m e) from rfl] at ha
          rw [hdw', if_neg hw'w] at ha
          have hold := hInv.relaxed w' hw'fin hw'ne e' he' a ha
          obtain ⟨x, hx, hxle⟩ := oLE_some hold
          show oLE ((updD s.dist e.target (k + effW m e)) e'.target) (a + effW m e')
          have hdt : (updD s.dist e.target (k + effW m e)) e'.target =
              if e'.target = e.target then some (k + effW m e) else s.dist e'.target := rfl
          rw [hdt]
          split
          · rename_i htw
            rw [htw] at hx
            rw [hx] at hlt
            have hltx : k + effW m e < x := hlt
            show k + effW m e ≤ a + effW m e'
            linarith
          · rw [hx]
            exact hxle
      · show (updD s.dist e.target (k + effW m e)) u = some k
        have : (updD s.dist e.target (k + effW m e)) u =
            if u = e.target then some (k + effW m e) else s.dist u := rfl
        rw [this, if_neg (fun hh => hwu hh.symm)]
        exact hdu
      · intro x hx
        rcases List.mem_append.mp hx with hx | hx
        · exact hmin x hx
        · rw [List.mem_singleton] at hx
          subst hx
          exact hndk
      · intro v hvfin
        have hvw : v ≠ e.target := fun hh => hwfin (hh ▸ hvfin)
        show oLE ((updD s.dist e.target (k + effW m e)) v) k
        have hdv : (updD s.dist e.target (k + effW m e)) v =
            if v = e.target then some (k + effW m e) else s.dist v := rfl
        rw [hdv, if_neg hvw]
        exact hfinle v hvfin
    · exact ih s (fun e' he' => hes e' (List.mem_cons_of_mem e he')) hInv hufin hdu hmin
        hfinle hk0

end Residency

namespace Residency

theorem oLE_of_oLEO_some {d : Option ℚ} {q : ℚ} (h : oLEO d (some q)) : oLE d q := by
  cases d
  · exact absurd h id
  · exact h

/-- One full non-stale, non-final iteration of the main loop: popping and
relaxing a fresh node carries the invariant to the extended settlement
list. -/
theorem step_preserve {g : Graph} {m : Bool} {start endN : Node} {s : DState}
    {fin : List Node} {k : ℚ} {u : Node} (hv : ValidGraph g)
    (hInv : Inv g m start endN s fin) (hend : endN ∉ fin)
    (hfm : findMin s.pq = some (k, u)) (hst : ¬ gtO k (s.dist u)) (hune : u ≠ endN) :
    Inv g m start endN
        (relax m k u (neighbors g u) ⟨s.dist, s.prev, removeFirst s.pq (k, u)⟩)
        (fin ++ [u]) ∧
      endN ∉ fin ++ [u] := by
  obtain ⟨hdu, hufin, hInv1⟩ := settle_preserve hv hInv hend hfm hst
  have hmemq : (k, u) ∈ s.pq := findMin_mem hfm
  have hk0 : 0 ≤ k := hInv.pq_nonneg (k, u) hmemq
  have hend1 : endN ∉ fin ++ [u] := by
    simp only [List.mem_append, List.mem_singleton]
    rintro (hh | hh)
    · exact hend hh
    · exact hune hh.symm
  have hmin1 : ∀ x ∈ (⟨s.dist, s.prev, removeFirst s.pq (k, u)⟩ : DState).pq, k ≤ x.1 :=
    fun x hx => findMin_fst_le hfm x (mem_of_mem_removeFirst hx)
  have hfinle1 : ∀ v ∈ fin ++ [u],
      oLE ((⟨s.dist, s.prev, removeFirst s.pq (k, u)⟩ : DState).dist v) k := by
    intro v hvmem
    rcases List.mem_append.mp hvmem with hvfin | hvu
    · exact hInv.fin_le v hvfin (k, u) hmemq
    · rw [List.mem_singleton] at hvu
      show oLE (s.dist v) k
      rw [hvu, hdu]
      exact le_refl k
  have hufin1 : u ∈ fin ++ [u] := by simp
  obtain ⟨hInv2, hdu2, hmin2, hfinle2⟩ :=
    relax_preserve hv (neighbors g u) ⟨s.dist, s.prev, removeFirst s.pq (k, u)⟩
      (fun e he => he) hInv1 hufin1 hdu hmin1 hfinle1 hk0
  refine ⟨⟨hInv2.pq_rel, hInv2.pq_ge, hInv2.pq_nonneg, hInv2.pq_once, hInv2.fin_final,
    hInv2.fin_nodup, hInv2.fin_rel, hInv2.fin_le, hInv2.dist_start, hInv2.prev_start,
    hInv2.prev_some, hInv2.prev_edge, hInv2.prev_fin, hInv2.prev_idx, hInv2.opt, ?_⟩,
    hend1⟩
  intro w hwmem hwne e he a ha
  by_cases hwu : w = u
  · have hak : a = k := by
      rw [hwu] at ha
      rw [ha] at hdu2
      exact Option.some.inj hdu2
    rw [hwu] at he
    have hcov := relax_covers m k u (neighbors g u)
      ⟨s.dist, s.prev, removeFirst s.pq (k, u)⟩ e he
    have := oLE_of_oLEO_some hcov
    rw [hak]
    exact this
  · exact hInv2.relaxed w hwmem hwu e he a ha

end Residency

namespace Residency

/-- At any successful exit of the main loop, the invariant holds for some
settlement list, and either the queue was exhausted without settling the
end node, or the end node is settled. -/
theorem dloop_spec {g : Graph} {m : Bool} {start endN : Node} (hv : ValidGraph g) :
    ∀ (fuel : ℕ) (s : DState) (fin : List Node) (s' : DState),
      Inv g m start endN s fin → endN ∉ fin →
      dloop g endN m fuel s = some s' →
      ∃ fin', Inv g m start endN s' fin' ∧
        ((s'.pq = [] ∧ endN ∉ fin') ∨ endN ∈ fin') := by
  intro fuel
  induction fuel with
  | zero =>
    intro s fin s' hInv hend hrun
    rw [dloop] at hrun
    split at hrun
    · rename_i hpq
      refine ⟨fin, ?_, Or.inl ⟨?_, hend⟩⟩
      · rw [← Option.some.inj hrun]
        exact hInv
      · rw [← Option.some.inj hrun]
        exact hpq
    · exact absurd hrun (by simp)
  | succ n ih =>
    intro s fin s' hInv hend hrun
    rw [dloop] at hrun
    split at hrun
    · rename_i hfm
      refine ⟨fin, ?_, Or.inl ⟨?_, hend⟩⟩
      · rw [← Option.some.inj hrun]
        exact hInv
      · rw [← Option.some.inj hrun]
        exact (findMin_none_iff s.pq).mp hfm
    · rename_i du hfm
      obtain ⟨k, u⟩ := du
      have hfm' : findMin s.pq = some (k, u) := hfm
      split at hrun
      · rename_i hgt
        have hgt' : gtO k (s.dist u) := hgt
        exact ih _ _ _ (stale_preserve hInv hfm' hgt') hend hrun
      · rename_i hgt
        have hst : ¬ gtO k (s.dist u) := hgt
        split at hrun
        · rename_i hue
          have hue' : u = endN := hue
          obtain ⟨-, -, hInv1⟩ := settle_preserve hv hInv hend hfm' hst
          refine ⟨fin ++ [u], ?_, Or.inr (by simp [hue'])⟩
          rw [← Option.some.inj hrun]
          rw [hue'] at hInv1
          rw [hue']
          exact hInv1
        · rename_i hue
          have hune : u ≠ endN := hue
          obtain ⟨hInv', hend'⟩ := step_preserve hv hInv hend hfm' hst hune
          exact ih _ _ _ hInv' hend' hrun

/-- Fuel sufficiency for the main loop: the queue length plus the number
of unrelaxed stored edges bounds the remaining iterations. -/
theorem dloop_total {g : Graph} {m : Bool} {start endN : Node} (hv : ValidGraph g) :
    ∀ (fuel : ℕ) (s : DState) (fin : List Node),
      Inv g m start endN s fin → endN ∉ fin →
      s.pq.length +
          (∑ v ∈ relevantF g start \ fin.toFinset, (neighbors g v).length) ≤ fuel →
      (dloop g endN m fuel s).isSome := by
  intro fuel
  induction fuel with
  | zero =>
    intro s fin hInv hend hb
    have hpq : s.pq = [] := by
      have : s.pq.length = 0 := by omega
      exact List.length_eq_zero.mp this
    rw [dloop, if_pos hpq]
    rfl
  | succ n ih =>
    intro s fin hInv hend hb
    rw [dloop]
    split
    · rfl
    · rename_i du hfm
      obtain ⟨k, u⟩ := du
      have hfm' : findMin s.pq = some (k, u) := hfm
      have hmem : (k, u) ∈ s.pq := findMin_mem hfm'
      have hlen : (removeFirst s.pq (k, u)).length + 1 = s.pq.length :=
        length_removeFirst hmem
      split
      · rename_i hgt
        have hgt' : gtO k (s.dist u) := hgt
        refine ih _ _ (stale_preserve hInv hfm' hgt') hend ?_
        show (removeFirst s.pq (k, u)).length + _ ≤ n
        omega
      · rename_i hgt
        have hst : ¬ gtO k (s.dist u) := hgt
        split
        · rfl
        · rename_i hue
          have hune : u ≠ endN := hue
          obtain ⟨hdu, hufin, -⟩ := settle_preserve hv hInv hend hfm' hst
          obtain ⟨hInv', hend'⟩ := step_preserve hv hInv hend hfm' hst hune
          refine ih _ _ hInv' hend' ?_
          have hurel : u ∈ relevantF g start := hInv.pq_rel (k, u) hmem
          have hudiff : u ∈ relevantF g start \ fin.toFinset := by
            rw [Finset.mem_sdiff]
            refine ⟨hurel, ?_⟩
            rw [List.mem_toFinset]
            exact hufin
          have hsplit : ∑ v ∈ relevantF g start \ fin.toFinset, (neighbors g v).length =
              (neighbors g u).length +
                ∑ v ∈ (relevantF g start \ fin.toFinset).erase u, (neighbors g v).length :=
            (Finset.add_sum_erase _ _ hudiff).symm
          have hdiff : relevantF g start \ (fin ++ [u]).toFinset =
              (relevantF g start \ fin.toFinset).erase u := by
            ext x
            simp only [Finset.mem_sdiff, Finset.mem_erase, List.toFinset_append,
              Finset.mem_union, List.mem_toFinset, List.toFinset_cons, List.toFinset_nil,
              insert_emptyc_eq, Finset.mem_insert, Finset.not_mem_empty, or_false,
              List.mem_singleton, Finset.mem_singleton]
            constructor
            · rintro ⟨h1, h2⟩
              push_neg at h2
              exact ⟨h2.2, h1, h2.1⟩
            · rintro ⟨h1, h2, h3⟩
              refine ⟨h2, ?_⟩
              push_neg
              exact ⟨h3, h1⟩
          have hrelaxlen : (relax m k u (neighbors g u)
              ⟨s.dist, s.prev, removeFirst s.pq (k, u)⟩).pq.length ≤
                (removeFirst s.pq (k, u)).length + (neighbors g u).length :=
            relax_pq_length m k u (neighbors g u) ⟨s.dist, s.prev, removeFirst s.pq (k, u)⟩
          rw [hdiff]
          show (relax m k u (neighbors g u)
            ⟨s.dist, s.prev, removeFirst s.pq (k, u)⟩).pq.length + _ ≤ n
          omega

end Residency

namespace Residency

theorem insertEdge_valid {g : Graph} {u : Node} {e : Edge} (hv : ValidGraph g)
    (he : 0 ≤ e.weight) : ValidGraph (insertEdge g u e) := by
  induction g with
  | nil =>
    intro p hp e' he'
    simp only [insertEdge, List.mem_singleton] at hp
    subst hp
    simp only [List.mem_singleton] at he'
    subst he'
    exact he
  | cons q rest ih =>
    obtain ⟨k, es⟩ := q
    intro p hp e' he'
    rw [insertEdge] at hp
    split at hp
    · rcases List.mem_cons.mp hp with hpe | hmem
      · rw [hpe] at he'
        have he'' : e' ∈ es ++ [e] := he'
        rcases List.mem_append.mp he'' with h1 | h1
        · exact hv (k, es) (List.mem_cons_self _ _) e' h1
        · rw [List.mem_singleton] at h1
          subst h1
          exact he
      · exact hv p (List.mem_cons_of_mem _ hmem) e' he'
    · rcases List.mem_cons.mp hp with hpe | hmem
      · rw [hpe] at he'
        exact hv (k, es) (List.mem_cons_self _ _) e' he'
      · exact ih (fun q hq => hv q (List.mem_cons_of_mem _ hq)) p hmem e' he'

theorem built_valid {g : Graph} (hb : Built g) : ValidGraph g := by
  induction hb with
  | empty => intro p hp; simp at hp
  | step g u v w c t b g' hbg hok ih =>
    rw [add_edge] at hok
    split at hok
    · exact absurd hok (by simp)
    · rename_i hw
      rw [← Except.ok.inj hok]
      exact insertEdge_valid ih (not_lt.mp hw)

theorem init_inv (g : Graph) (m : Bool) (start endN : Node) :
    Inv g m start endN (startState start) [] := by
  have hds : (startState start).dist start = some 0 := by
    show (if start = start then some 0 else none) = some 0
    rw [if_pos rfl]
  refine ⟨?_, ?_, ?_, ?_, ?_, List.nodup_nil, ?_, ?_, hds, rfl, ?_, ?_, ?_, ?_, ?_, ?_⟩
  · intro x hx
    have hx' : x ∈ [((0 : ℚ), start)] := hx
    rw [List.mem_singleton] at hx'
    subst hx'
    exact Finset.mem_insert_self start (targetsF g)
  · intro x hx
    have hx' : x ∈ [((0 : ℚ), start)] := hx
    rw [List.mem_singleton] at hx'
    subst hx'
    show oLE ((startState start).dist start) (0 : ℚ)
    rw [hds]
    exact le_refl (0 : ℚ)
  · intro x hx
    have hx' : x ∈ [((0 : ℚ), start)] := hx
    rw [List.mem_singleton] at hx'
    subst hx'
    exact le_refl (0 : ℚ)
  · intro k v hd
    show cnt (k, v) [(0, start)] ≤ 1
    rw [cnt, cnt]
    split <;> omega
  · intro v
    constructor
    · intro hv
      simp at hv
    · rintro ⟨h1, h2⟩
      exfalso
      by_cases hvs : v = start
      · subst hvs
        exact h2 ⟨0, List.mem_singleton.mpr rfl, hds⟩
      · refine h1 ?_
        show (if v = start then some 0 else none) = none
        rw [if_neg hvs]
  · intro v hv
    simp at hv
  · intro v hv
    simp at hv
  · intro v hvs hd
    exfalso
    refine hd ?_
    show (if v = start then some 0 else none) = none
    rw [if_neg hvs]
  · intro v u hp
    exact absurd hp (by simp [startState])
  · intro v u hp
    exact absurd hp (by simp [startState])
  · intro v u hp
    exact absurd hp (by simp [startState])
  · intro v hv
    simp at hv
  · intro v hv
    simp at hv

theorem exhaust_settled {g : Graph} {m : Bool} {start endN : Node} {s : DState}
    {fin : List Node} (hInv : Inv g m start endN s fin) (hpq : s.pq = [])
    (hend : endN ∉ fin) :
    ∀ v c, Reach g m start v c → v ∈ fin := by
  intro v c hr
  induction hr with
  | base =>
    refine (hInv.fin_final start).mpr ⟨by rw [hInv.dist_start]; simp, ?_⟩
    rintro ⟨k, hk, -⟩
    rw [hpq] at hk
    simp at hk
  | step u c' e hr' he ih =>
    have hune : u ≠ endN := fun hh => hend (hh ▸ ih)
    have hdu : s.dist u ≠ none := ((hInv.fin_final u).mp ih).1
    obtain ⟨a, ha⟩ := Option.ne_none_iff_exists'.mp hdu
    have hrel := hInv.relaxed u ih hune e he a ha
    obtain ⟨dt, hdt, -⟩ := oLE_some hrel
    refine (hInv.fin_final e.target).mpr ⟨by rw [hdt]; simp, ?_⟩
    rintro ⟨k, hk, -⟩
    rw [hpq] at hk
    simp at hk

end Residency

namespace Residency

/-- Back-tracing from any settled node terminates at the start node,
producing (after Python's final reversal) a directed path whose total
effective cost is exactly the node's settled distance. -/
theorem backtrace_spec {g : Graph} {m : Bool} {start endN : Node} {s : DState}
    {fin : List Node} (hInv : Inv g m start endN s fin) :
    ∀ (v : Node), v ∈ fin →
      ∀ (F : ℕ) (acc : List Node), idxOf v fin + 1 ≤ F →
      ∃ (l : List Node) (c : ℚ),
        backtrace s.prev F v acc = some (acc ++ l) ∧
        l.reverse.head? = some start ∧ l.head? = some v ∧
        ChainCost g m l.reverse c ∧ s.dist v = some c := by
  suffices h : ∀ (n : ℕ) (v : Node), v ∈ fin → idxOf v fin = n →
      ∀ (F : ℕ) (acc : List Node), n + 1 ≤ F →
      ∃ (l : List Node) (c : ℚ),
        backtrace s.prev F v acc = some (acc ++ l) ∧
        l.reverse.head? = some start ∧ l.head? = some v ∧
        ChainCost g m l.reverse c ∧ s.dist v = some c by
    intro v hv F acc hF
    exact h (idxOf v fin) v hv rfl F acc hF
  intro n
  induction n using Nat.strong_induction_on with
  | _ n ih =>
    intro v hv hidx F acc hF
    by_cases hvs : v = start
    · obtain ⟨F', rfl⟩ : ∃ F', F = F' + 1 := ⟨F - 1, by omega⟩
      rw [backtrace, show s.prev v = none from hvs ▸ hInv.prev_start]
      refine ⟨[v], 0, rfl, by simp [hvs], rfl, ?_, ?_⟩
      · rw [List.reverse_singleton]
        exact ChainCost.single v
      · rw [hvs]
        exact hInv.dist_start
    · have hdv : s.dist v ≠ none := ((hInv.fin_final v).mp hv).1
      have hps := hInv.prev_some v hvs hdv
      rw [Option.isSome_iff_exists] at hps
      obtain ⟨u, hpu⟩ := hps
      have hufin : u ∈ fin := hInv.prev_fin v u hpu
      have hidxlt : idxOf u fin < idxOf v fin := hInv.prev_idx v u hpu hv
      obtain ⟨e, he, htgt, a, ha, hav⟩ := hInv.prev_edge v u hpu
      obtain ⟨F', rfl⟩ : ∃ F', F = F' + 1 := ⟨F - 1, by omega⟩
      rw [backtrace, hpu]
      have hF' : idxOf u fin + 1 ≤ F' := by omega
      obtain ⟨lu, cu, hbt, hrevhead, hheadu, hchain, hdu⟩ :=
        ih (idxOf u fin) (by omega) u hufin rfl F' (acc ++ [v]) hF'
      refine ⟨v :: lu, cu + effW m e, ?_, ?_, rfl, ?_, ?_⟩
      · show backtrace s.prev F' u (acc ++ [v]) = some (acc ++ (v :: lu))
        rw [hbt]
        congr 1
        simp
      · rw [List.reverse_cons]
        cases hlu : lu.reverse with
        | nil =>
          rw [hlu] at hrevhead
          simp at hrevhead
        | cons x xs =>
          rw [hlu] at hrevhead
          simpa using hrevhead
      · rw [List.reverse_cons]
        have hlast : lu.reverse.getLast? = some u := by
          rw [List.getLast?_reverse]
          exact hheadu
        have hsn := chain_snoc hchain hlast he
        rw [htgt] at hsn
        exact hsn
      · have hac : a = cu := by
          rw [ha] at hdu
          exact Option.some.inj hdu
        rw [hav, hac]

end Residency

namespace Residency

/-- Complete analysis of a non-degenerate query (`start` known and
distinct from `end`): either a non-empty, cost-optimal directed path is
returned with its annotations, or the sentinel empty triple is returned
and no directed path exists. -/
theorem dijkstra_run {g : Graph} {m : Bool} {s e : Node} (hv : ValidGraph g)
    (hk : known g s = true) (hne : s ≠ e) :
    (∃ (p : List Node) (c : ℚ),
        dijkstra g s e m = some (p, tipsOf g m p, alertsOf g p) ∧ p ≠ [] ∧
        p.head? = some s ∧ p.getLast? = some e ∧ ChainCost g m p c ∧
        ∀ (l' : List Node) (c' : ℚ), ChainCost g m l' c' → l'.head? = some s →
          l'.getLast? = some e → c ≤ c') ∨
    (dijkstra g s e m = some ([], [], []) ∧
      ¬∃ (l' : List Node) (c' : ℚ), ChainCost g m l' c' ∧ l'.head? = some s ∧
        l'.getLast? = some e) := by
  have hInv0 := init_inv g m s e
  have hend0 : e ∉ ([] : List Node) := List.not_mem_nil e
  have hbound : (startState s).pq.length +
      (∑ v ∈ relevantF g s \ (([] : List Node)).toFinset, (neighbors g v).length) ≤
      1 + numEdges g := by
    have h1 : (startState s).pq.length = 1 := rfl
    have h2 : relevantF g s \ (([] : List Node)).toFinset = relevantF g s := by simp
    rw [h1, h2]
    exact Nat.add_le_add_left (sum_deg_le g _) 1
  have hsome := dloop_total hv (1 + numEdges g) (startState s) [] hInv0 hend0 hbound
  rw [Option.isSome_iff_exists] at hsome
  obtain ⟨st, hst⟩ := hsome
  obtain ⟨fin', hInv', hcase⟩ :=
    dloop_spec hv (1 + numEdges g) (startState s) [] st hInv0 hend0 hst
  have hknown : ¬ (known g s = false ∧ s ≠ e) := by
    rw [hk]
    simp
  rcases hcase with ⟨hpq, hendnot⟩ | hendin
  · right
    have hde : st.dist e = none := by
      by_contra hd
      refine hendnot ((hInv'.fin_final e).mpr ⟨hd, ?_⟩)
      rintro ⟨k, hkmem, -⟩
      rw [hpq] at hkmem
      simp at hkmem
    have hpe : st.prev e = none := by
      cases hpe : st.prev e with
      | none => rfl
      | some u =>
        obtain ⟨e', -, -, a, -, hav⟩ := hInv'.prev_edge e u hpe
        rw [hde] at hav
        exact absurd hav (by simp)
    have hbt : backtrace st.prev (2 + numEdges g) e [] = some [e] := by
      have h2 : (2 : ℕ) + numEdges g = (1 + numEdges g) + 1 := by omega
      rw [h2, backtrace, hpe]
      rfl
    constructor
    · unfold dijkstra
      rw [if_neg hknown, if_neg hne]
      simp only [hst, hbt]
      split
      · rfl
      · rename_i hcond
        push_neg at hcond
        exfalso
        have hh : ([e] : List Node).reverse.head? = some s := hcond.2
        simp at hh
        exact hne hh.symm
    · rintro ⟨l', c', hc', hh, hl⟩
      have hre := reach_of_chain hc' hh hl
      exact hendnot (exhaust_settled hInv' hpq hendnot e c' hre)
  · left
    have hlenfin : fin'.length ≤ 1 + numEdges g := by
      have h1 : fin'.toFinset.card = fin'.length :=
        List.toFinset_card_of_nodup hInv'.fin_nodup
      have h2 : fin'.toFinset ⊆ relevantF g s := by
        intro x hx
        rw [List.mem_toFinset] at hx
        exact hInv'.fin_rel x hx
      have h3 := Finset.card_le_card h2
      have h4 := relevantF_card_le g s
      omega
    have hidx : idxOf e fin' + 1 ≤ 2 + numEdges g := by
      have := idxOf_lt_length hendin
      omega
    obtain ⟨l, c, hbt, hrevhead, hheade, hchain, hde⟩ :=
      backtrace_spec hInv' e hendin (2 + numEdges g) [] hidx
    have hbt' : backtrace st.prev (2 + numEdges g) e [] = some l := hbt
    refine ⟨l.reverse, c, ?_, ?_, hrevhead, ?_, hchain, ?_⟩
    · unfold dijkstra
      rw [if_neg hknown, if_neg hne]
      simp only [hst, hbt']
      split
      · rename_i hcond
        exfalso
        rcases hcond with h1 | h1
        · rw [h1] at hrevhead
          simp at hrevhead
        · exact h1 hrevhead
      · rfl
    · intro hnil
      rw [hnil] at hrevhead
      simp at hrevhead
    · rw [List.getLast?_reverse]
      exact hheade
    · intro l' c' hc' hh' hl'
      have hre := reach_of_chain hc' hh' hl'
      have hopt := hInv'.opt e hendin c' hre
      rw [hde] at hopt
      exact hopt

end Residency

namespace Residency

/-- C1: on a graph built by successful insertions, for distinct known
start and end, any non-empty returned node sequence is a directed path
from start to end whose total effective cost under the mode's cost
function is minimal among all such paths, and a non-empty sequence is
returned whenever some directed path from start to end exists. -/
theorem claim_C1_shortest_path (g : Graph) (m : Bool) (s e : Node) (hb : Built g)
    (hne : s ≠ e) (hk : known g s = true) (p : List Node) (tips alerts : List String)
    (hrun : dijkstra g s e m = some (p, tips, alerts)) :
    (p ≠ [] → p.head? = some s ∧ p.getLast? = some e ∧
      ∃ c : ℚ, ChainCost g m p c ∧
        ∀ (l' : List Node) (c' : ℚ), ChainCost g m l' c' → l'.head? = some s →
          l'.getLast? = some e → c ≤ c') ∧
    ((∃ (l' : List Node) (c' : ℚ), ChainCost g m l' c' ∧ l'.head? = some s ∧
        l'.getLast? = some e) → p ≠ []) := by
  have hv := built_valid hb
  rcases dijkstra_run (m := m) hv hk hne with
    ⟨p', c, hrun', hne', hh, hl, hc, hopt⟩ | ⟨hrun', hnopath⟩
  · rw [hrun'] at hrun
    simp only [Option.some.injEq, Prod.mk.injEq] at hrun
    obtain ⟨hp, -, -⟩ := hrun
    subst hp
    constructor
    · intro _
      exact ⟨hh, hl, c, hc, hopt⟩
    · intro _
      exact hne'
  · rw [hrun'] at hrun
    simp only [Option.some.injEq, Prod.mk.injEq] at hrun
    obtain ⟨hp, -, -⟩ := hrun
    constructor
    · intro hpne
      exact absurd hp.symm hpne
    · intro hex
      exact absurd hex hnopath

/-- Witness for C1 on the one-edge store: the returned path `[0, 1]` is
the optimal directed path. -/
theorem claim_C1_witness :
    (([0, 1] : List Node) ≠ [] → ([0, 1] : List Node).head? = some 0 ∧
      ([0, 1] : List Node).getLast? = some 1 ∧
      ∃ c : ℚ, ChainCost exGraph1 false [0, 1] c ∧
        ∀ (l' : List Node) (c' : ℚ), ChainCost exGraph1 false l' c' → l'.head? = some 0 →
          l'.getLast? = some 1 → c ≤ c') ∧
    ((∃ (l' : List Node) (c' : ℚ), ChainCost exGraph1 false l' c' ∧ l'.head? = some 0 ∧
        l'.getLast? = some 1) → ([0, 1] : List Node) ≠ []) :=
  claim_C1_shortest_path exGraph1 false 0 1
    (Built.step [] 0 1 1 "low" "" false exGraph1 Built.empty (by with_unfolding_all rfl))
    (by decide) (by decide) [0, 1] [] []
    (by with_unfolding_all decide)

/-- C5: for distinct start and end, the query returns the sentinel empty
triple by normal return (no exception: the result is a value) whenever
the start node is unknown or no directed path from start to end exists. -/
theorem claim_C5_no_path (g : Graph) (s e : Node) (m : Bool) (hv : ValidGraph g)
    (hne : s ≠ e)
    (h : known g s = false ∨
      ¬∃ (l : List Node) (c : ℚ), ChainCost g m l c ∧ l.head? = some s ∧
        l.getLast? = some e) :
    dijkstra g s e m = some ([], [], []) := by
  by_cases hk : known g s = true
  · rcases h with hkf | hnopath
    · rw [hk] at hkf
      exact absurd hkf (by simp)
    · rcases dijkstra_run (m := m) hv hk hne with
        ⟨p', c, hrun', hne', hh, hl, hc, hopt⟩ | ⟨hrun', -⟩
      · exact absurd ⟨p', c, hc, hh, hl⟩ hnopath
      · exact hrun'
  · have hkf : known g s = false := by
      cases hknown : known g s
      · rfl
      · exact absurd hknown hk
    unfold dijkstra
    rw [if_pos ⟨hkf, hne⟩]

/-- Witness for C5: querying from an unknown start returns the sentinel. -/
theorem claim_C5_witness : dijkstra exGraph1 7 1 true = some ([], [], []) :=
  claim_C5_no_path exGraph1 7 1 true (by decide) (by decide) (Or.inl (by decide))

/-- Counterexample to C9 as stated: on the one-edge store the frontier
loop does not finish within `numEdges` iterations (it needs one more,
since the start pop itself consumes an iteration). -/
theorem claim_C9_counterexample :
    dloop exGraph1 1 false (numEdges exGraph1) (startState 0) = none ∧
      ValidGraph exGraph1 ∧ known exGraph1 0 = true :=
  ⟨by with_unfolding_all rfl, by decide, by decide⟩

/-- C9 (amended): on every graph whose stored weights are non-negative
the query terminates — the frontier loop completes within
`1 + numEdges g` iterations and the predecessor back-trace reaches a
node with no predecessor within its fuel — so the whole query returns a
value. -/
theorem claim_C9_termination (g : Graph) (s e : Node) (m : Bool) (hv : ValidGraph g) :
    (dijkstra g s e m).isSome = true ∧
      (known g s = true → s ≠ e →
        (dloop g e m (1 + numEdges g) (startState s)).isSome = true) := by
  have hloop : known g s = true → s ≠ e →
      (dloop g e m (1 + numEdges g) (startState s)).isSome = true := by
    intro _ _
    refine dloop_total hv (1 + numEdges g) (startState s) [] (init_inv g m s e)
      (List.not_mem_nil e) ?_
    have h1 : (startState s).pq.length = 1 := rfl
    have h2 : relevantF g s \ (([] : List Node)).toFinset = relevantF g s := by simp
    rw [h1, h2]
    exact Nat.add_le_add_left (sum_deg_le g _) 1
  refine ⟨?_, hloop⟩
  by_cases h1 : known g s = false ∧ s ≠ e
  · unfold dijkstra
    rw [if_pos h1]
    rfl
  · by_cases h2 : s = e
    · unfold dijkstra
      rw [if_neg h1, if_pos h2]
      rfl
    · have hk : known g s = true := by
        cases hknown : known g s
        · exact absurd ⟨hknown, h2⟩ h1
        · rfl
      rcases dijkstra_run (m := m) hv hk h2 with ⟨p, c, hrun, -⟩ | ⟨hrun, -⟩
      · rw [hrun]
        rfl
      · rw [hrun]
        rfl

/-- Witness for the amended C9 at a concrete graph and query. -/
theorem claim_C9_witness :
    (dijkstra exGraph1 0 1 true).isSome = true ∧
      (known exGraph1 0 = true → (0 : Node) ≠ 1 →
        (dloop exGraph1 1 true (1 + numEdges exGraph1) (startState 0)).isSome = true) :=
  claim_C9_termination exGraph1 0 1 true (by decide)

end Residency
